import Mathlib

/-!
A shallow embedding of the chop/join core of the `file_chopper` repository
(`src/file_chopper/chopper.py`): size-string parsing, chunked splitting,
checksum-verified reassembly and part discovery, together with proofs of the
specified properties.

Files are modelled as lists of byte values, file names as lists of
characters, and the file system visible to `join` as an association list
from paths to contents.  The SHA-256 digest is kept abstract: `join` takes
the digest function as a parameter, since the verified properties depend
only on equality of digests, never on the internals of SHA-256.
-/

/-- A byte value.  Byte-level arithmetic never occurs in the source, so the
    values are left as plain naturals. -/
abbrev Byte := Nat

/-- The contents of a file. -/
abbrev Bytes := List Byte

/-- `BUFFER_SIZE = 4 * 1024 * 1024`, the read/write buffer size. -/
def BUFFER_SIZE : Nat := 4 * 1024 * 1024

/-- ASCII decimal digit test (the `\d` class of `PART_PATTERN` and of the
    size regex, restricted to ASCII as in the file names at hand). -/
def isDigitChar (c : Char) : Bool := 48 ≤ c.toNat && c.toNat ≤ 57

/-- ASCII letter test (the `[A-Za-z]` class of the size regex). -/
def isAlphaChar (c : Char) : Bool :=
  (65 ≤ c.toNat && c.toNat ≤ 90) || (97 ≤ c.toNat && c.toNat ≤ 122)

/-- ASCII whitespace test (the `\s` class and `str.strip`, restricted to
    ASCII). -/
def isSpaceChar (c : Char) : Bool :=
  c.toNat = 32 || c.toNat = 9 || c.toNat = 10 || c.toNat = 13 ||
  c.toNat = 11 || c.toNat = 12

/-- The decimal digit character for a value below ten (`str` of one digit). -/
def digitChar (d : Nat) : Char :=
  if d = 0 then '0' else if d = 1 then '1' else if d = 2 then '2'
  else if d = 3 then '3' else if d = 4 then '4' else if d = 5 then '5'
  else if d = 6 then '6' else if d = 7 then '7' else if d = 8 then '8'
  else '9'

/-- Fuel-bounded digit expansion, structurally recursive so the kernel can
    evaluate it; `digitsFuel fuel n` is the decimal representation of `n`
    whenever `n < fuel`. -/
def digitsFuel : Nat → Nat → List Char
  | 0, _ => []
  | fuel + 1, n =>
    if n < 10 then [digitChar n]
    else digitsFuel fuel (n / 10) ++ [digitChar (n % 10)]

/-- The decimal representation of a natural number, most significant digit
    first (Python `str(n)` for non-negative `n`). -/
def natDigitChars (n : Nat) : List Char := digitsFuel (n + 1) n

/-- The numeric value of a list of decimal digit characters. -/
def natOfDigitChars (ds : List Char) : Nat :=
  ds.foldl (fun a c => a * 10 + (c.toNat - 48)) 0

/-- Zero padding to a minimum width, as in Python `format(i, "04d")`:
    the number is never truncated, only padded. -/
def zeroPad (w : Nat) (ds : List Char) : List Char :=
  List.replicate (w - ds.length) '0' ++ ds

/-- The characters `".part"` of `PART_SUFFIX_TEMPLATE` and `PART_PATTERN`. -/
def partDotChars : List Char := ['.', 'p', 'a', 'r', 't']

/-- The characters `".sha256"` of the checksum sidecar suffix. -/
def sha256Ext : List Char := ['.', 's', 'h', 'a', '2', '5', '6']

/-- `source.name + PART_SUFFIX_TEMPLATE.format(index=index)`: the part file
    name `<base>.part<index zero-padded to at least four digits>`. -/
def partName (base : List Char) (index : Nat) : List Char :=
  base ++ partDotChars ++ zeroPad 4 (natDigitChars index)

/-- `PART_PATTERN.match`, the anchored regex `^(.+)\.part(\d{4})$`, returning
    `group(1)` and the numeric value of `group(2)`.

    Because the suffix `.part` plus exactly four digits has fixed length
    nine, a match exists precisely when the last nine characters are
    `.part` followed by four digits and a non-empty base precedes them, and
    the decomposition is then unique; the definition tests exactly that,
    working from the reversed string. -/
def parsePartName (name : List Char) : Option (List Char × Nat) :=
  let r := name.reverse
  let d4 := r.take 4
  let tag := (r.drop 4).take 5
  let base := r.drop 9
  if d4.length = 4 ∧ d4.all isDigitChar ∧ tag = ['t', 'r', 'a', 'p', '.'] ∧ base ≠ [] then
    some (base.reverse, natOfDigitChars d4.reverse)
  else
    none

/-- `pathlib.PurePath.stem`: the file name without its suffix, where the
    suffix is the part from the last dot on, provided that dot is neither
    the first nor the last character of the name. -/
def stem (name : List Char) : List Char :=
  let r := name.reverse
  match r.findIdx? (fun c => c = '.') with
  | none => name
  | some j => if j = 0 ∨ j = r.length - 1 then name else (r.drop (j + 1)).reverse

/-- Splits a list into its longest prefix of elements satisfying `p` and the
    rest (the semantics of a greedy regex character-class repetition). -/
def splitWhile (p : Char → Bool) : List Char → List Char × List Char
  | [] => ([], [])
  | c :: cs =>
    if p c then
      let pr := splitWhile p cs
      (c :: pr.1, pr.2)
    else ([], c :: cs)

/-- Python `str.strip()`: surrounding whitespace removed from both ends. -/
def stripStr (s : List Char) : List Char :=
  ((splitWhile isSpaceChar ((splitWhile isSpaceChar s).2.reverse)).2).reverse

/-- The read loop `while True: data = fh.read(S); if not data: break; ...`:
    the successive blocks of at most `S` bytes of `rest`.  A read of size
    zero returns no data, so the loop body mirrors `read` by taking `S`
    elements and stopping when that take is empty. -/
def readChunks (S : Nat) (rest : List Byte) : List (List Byte) :=
  if h : rest.take S = [] then []
  else rest.take S :: readChunks S (rest.drop S)
  termination_by rest.length
  decreasing_by
    rw [List.take_eq_nil_iff] at h
    push_neg at h
    have h1 : rest ≠ [] := h.2
    have h2 : S ≠ 0 := h.1
    have h3 : 0 < rest.length := List.length_pos.mpr h1
    simp only [List.length_drop]
    omega

/-- The body of `chop`'s writing loop: each block read becomes a part file
    named `partName` with a strictly increasing one-based index. -/
def chopLoop (S : Nat) (name : List Char) (index : Nat) (rest : Bytes) :
    List (List Char × Bytes) :=
  if h : rest.take S = [] then []
  else (partName name index, rest.take S) :: chopLoop S name (index + 1) (rest.drop S)
  termination_by rest.length
  decreasing_by
    rw [List.take_eq_nil_iff] at h
    push_neg at h
    have h1 : rest ≠ [] := h.2
    have h3 : 0 < rest.length := List.length_pos.mpr h1
    simp only [List.length_drop]
    omega

/-- The failure modes of `chop` that remain once the source file is given by
    its contents (so existence and not-being-a-directory hold by
    construction): a non-positive chunk size and an empty source. -/
inductive ChopError where
  | invalidChunkSize : ChopError
  | emptyInput : ChopError
  deriving DecidableEq

/-- `chop(source, chunk_size)`: validation of the chunk size and of
    non-emptiness, then the writing loop.  The source file is represented by
    its name and contents; the returned list pairs each part file name with
    the bytes written to it, in creation order. -/
def chop (sourceName : List Char) (sourceData : Bytes) (chunkSize : Int) :
    Except ChopError (List (List Char × Bytes)) :=
  if chunkSize ≤ 0 then .error .invalidChunkSize
  else if sourceData.length = 0 then .error .emptyInput
  else .ok (chopLoop chunkSize.toNat sourceName 1 sourceData)

/-- A file path, split as `pathlib` does into the parent directory and the
    final name component. -/
structure FPath where
  dir : List Char
  name : List Char
  deriving DecidableEq

/-- The file system visible to `join`: an association list from paths to
    file contents.  Earlier entries shadow later ones. -/
abbrev FS := List (FPath × Bytes)

/-- The contents of the file at `p`, or `none` when no such file exists. -/
def FS.get : FS → FPath → Option Bytes
  | [], _ => none
  | (q, d) :: rest, p => if q = p then some d else FS.get rest p

/-- Writing `d` to the file at `p`, creating it when absent. -/
def FS.set : FS → FPath → Bytes → FS
  | [], p, d => [(p, d)]
  | (q, e) :: rest, p, d => if q = p then (p, d) :: rest else (q, e) :: FS.set rest p d

/-- `Path.unlink`: the file at `p` is removed. -/
def FS.erase (fs : FS) (p : FPath) : FS :=
  fs.filter (fun e => ! decide (e.1 = p))

/-- `text.split()[0]` on a file's contents: the first whitespace-delimited
    token, or `none` when the file holds only whitespace (where Python would
    raise an `IndexError`). -/
def firstToken (bs : Bytes) : Option Bytes :=
  let afterSpace := bs.dropWhile (fun b => decide (b = 32 ∨ b = 9 ∨ b = 10 ∨ b = 13 ∨ b = 11 ∨ b = 12))
  let tok := afterSpace.takeWhile (fun b => decide (¬ (b = 32 ∨ b = 9 ∨ b = 10 ∨ b = 13 ∨ b = 11 ∨ b = 12)))
  if tok = [] then none else some tok

/-- The inner read loop of `join`, which streams one part in blocks of
    `BUFFER_SIZE` bytes; the bytes appended to the output are the
    concatenation of those blocks. -/
def partReadBytes (c : Bytes) : Bytes :=
  (readChunks BUFFER_SIZE c).flatten

/-- The bytes the writing loop of `join` appends for an ordered list of part
    contents. -/
def joinWrittenBytes (cs : List Bytes) : Bytes :=
  (cs.map partReadBytes).flatten

/-- The writing loop of `join`: each part is read from the (evolving) file
    system and its bytes are appended to the output file. -/
def writeParts (fs : FS) (out : FPath) : List FPath → FS
  | [] => fs
  | p :: ps =>
    writeParts
      (FS.set fs out (((FS.get fs out).getD []) ++ partReadBytes ((FS.get fs p).getD [])))
      out ps

/-- Output-path inference of `join`: a caller-supplied path is used as is;
    otherwise the first part's name is parsed by `PART_PATTERN`, the matched
    base (or, failing a match, the first part's stem) becomes the output
    name, placed in the first part's directory. -/
def resolveOutput (parts : List FPath) (output : Option FPath) : FPath :=
  match output with
  | some o => o
  | none =>
    match parts with
    | [] => ⟨[], []⟩
    | first :: _ =>
      match parsePartName first.name with
      | some (b, _) => ⟨first.dir, b⟩
      | none => ⟨first.dir, stem first.name⟩

/-- Checksum-sidecar location of `join`: the name is the first part's parsed
    base name (falling back to the output's name when the first part does
    not match `PART_PATTERN`) plus `".sha256"`, and the directory is the
    first part's directory. -/
def sidecarPath (parts : List FPath) (out : FPath) : FPath :=
  match parts with
  | [] => out
  | first :: _ =>
    ⟨first.dir,
     (match parsePartName first.name with
      | some (b, _) => b
      | none => out.name) ++ sha256Ext⟩

/-- The failure modes of `join`. -/
inductive JoinError where
  | invalidArgument : JoinError
  | notFound : FPath → JoinError
  | checksumMismatch : Bytes → Bytes → JoinError
  | sidecarIndexError : JoinError
  deriving DecidableEq

/-- `join(parts, output, verify)`, parametrised by the digest function
    `hash` standing for SHA-256 of a byte sequence.  Returns the final file
    system together with the result: validation of non-emptiness and of the
    existence of every part, output resolution, truncating write, then
    optional verification against the sidecar found beside the first part,
    deleting the output on a digest mismatch. -/
def join (hash : Bytes → Bytes) (fs : FS) (parts : List FPath)
    (output : Option FPath) (verify : Bool) : FS × Except JoinError FPath :=
  match parts with
  | [] => (fs, .error .invalidArgument)
  | _ :: _ =>
    match parts.find? (fun q => (FS.get fs q).isNone) with
    | some p => (fs, .error (.notFound p))
    | none =>
      let out := resolveOutput parts output
      let fs1 := writeParts (FS.set fs out []) out parts
      if verify then
        let cs := sidecarPath parts out
        match FS.get fs1 cs with
        | none => (fs1, .ok out)
        | some sc =>
          match firstToken sc with
          | none => (fs1, .error .sidecarIndexError)
          | some expected =>
            let actual := hash ((FS.get fs1 out).getD [])
            if expected = actual then (fs1, .ok out)
            else (FS.erase fs1 out, .error (.checksumMismatch expected actual))
      else (fs1, .ok out)

/-- Lexicographic comparison of names by character code, the order `sorted`
    uses on the path strings. -/
def lexLe : List Char → List Char → Bool
  | [], _ => true
  | _ :: _, [] => false
  | a :: as, b :: bs => a.toNat < b.toNat || (a.toNat = b.toNat && lexLe as bs)

/-- Insertion into a sorted list of names. -/
def insertSorted (x : List Char) : List (List Char) → List (List Char)
  | [] => [x]
  | y :: ys => if lexLe x y then x :: y :: ys else y :: insertSorted x ys

/-- `sorted` on a list of names. -/
def sortNames : List (List Char) → List (List Char)
  | [] => []
  | x :: xs => insertSorted x (sortNames xs)

/-- The failure mode of `find_parts`. -/
inductive FindError where
  | notFound : FindError
  deriving DecidableEq

/-- `find_parts(directory, base_name)` over the list of entry names of the
    directory: the glob `<base_name>.part*` keeps the names extending
    `<base_name>.part`, the candidates are sorted, only those matching
    `PART_PATTERN` are kept, and an empty result is an error. -/
def find_parts (entries : List (List Char)) (baseName : List Char) :
    Except FindError (List (List Char)) :=
  let candidates := sortNames (entries.filter (fun n => List.isPrefixOf (baseName ++ partDotChars) n))
  let parts := candidates.filter (fun n => (parsePartName n).isSome)
  if parts = [] then .error .notFound else .ok parts

/-- The optional fraction `(?:\.\d+)?` of the size regex: from the rest of
    the input after the integer digits, the consumed fraction (empty when
    the group does not participate) and the remaining input. -/
def fracPart (rest : List Char) : List Char × List Char :=
  match rest with
  | [] => ([], [])
  | c :: r =>
    if c = '.' then
      let fs := (splitWhile isDigitChar r).1
      if fs = [] then ([], rest) else ('.' :: fs, (splitWhile isDigitChar r).2)
    else ([], rest)

/-- `re.fullmatch(r"(\d+(?:\.\d+)?)\s*([A-Za-z]*)", s)`: the number string
    (group 1) and the unit letters (group 2), or `none` when the string does
    not match.  Each repetition is greedy; greedy matching here coincides
    with the regex semantics because no character class overlaps the one
    that may follow it. -/
def matchSizeRe (s : List Char) : Option (List Char × List Char) :=
  let ds := (splitWhile isDigitChar s).1
  let rest := (splitWhile isDigitChar s).2
  if ds = [] then none
  else
    let fr := (fracPart rest).1
    let rest2 := (fracPart rest).2
    let sp := (splitWhile isSpaceChar rest2).2
    let ls := (splitWhile isAlphaChar sp).1
    let rest4 := (splitWhile isAlphaChar sp).2
    if rest4 = [] then some (ds ++ fr, ls) else none

/-- ASCII upper-casing of one character, as `str.upper` acts on the unit
    letters matched by `[A-Za-z]`. -/
def toUpperChar (c : Char) : Char :=
  if 97 ≤ c.toNat ∧ c.toNat ≤ 122 then Char.ofNat (c.toNat - 32) else c

/-- The `units` dictionary of `parse_size`: multipliers are the binary
    powers 1024^0 .. 1024^4. -/
def unitsMap (u : List Char) : Option Nat :=
  if u = ['B'] then some 1
  else if u = ['K'] then some 1024
  else if u = ['K', 'B'] then some 1024
  else if u = ['M'] then some (1024 ^ 2)
  else if u = ['M', 'B'] then some (1024 ^ 2)
  else if u = ['G'] then some (1024 ^ 3)
  else if u = ['G', 'B'] then some (1024 ^ 3)
  else if u = ['T'] then some (1024 ^ 4)
  else if u = ['T', 'B'] then some (1024 ^ 4)
  else none

/-- The exact rational value of the decimal literal matched as group 1 of
    the size regex (integer digits, optional fractional digits).
    `float(number_str)` in the source denotes the IEEE-754 binary64 double
    nearest to this value. -/
def decimalValue (ns : List Char) : ℚ :=
  let ip := (splitWhile isDigitChar ns).1
  match (splitWhile isDigitChar ns).2 with
  | '.' :: fp => (natOfDigitChars ip : ℚ) + (natOfDigitChars fp : ℚ) / 10 ^ fp.length
  | _ => (natOfDigitChars ip : ℚ)

/-- A fuel-bounded binary logarithm (structurally recursive, so proofs and
    the kernel can evaluate it): for `fuel` at least the true logarithm this
    is the floor of the base-two logarithm of `n`, and `0` on `0` and `1`. -/
def log2fuel : Nat → Nat → Nat
  | 0, _ => 0
  | fuel + 1, n => if 2 ≤ n then log2fuel fuel (n / 2) + 1 else 0

/-- Floor of the base-two logarithm. -/
def natLog2 (n : Nat) : Nat := log2fuel n n

/-- The value of the decimal literal as an unreduced fraction
    `(numerator, denominator)` of naturals — the input to the binary64
    rounding that `float(number_str)` performs. -/
def decimalPair (ns : List Char) : Nat × Nat :=
  let ip := (splitWhile isDigitChar ns).1
  match (splitWhile isDigitChar ns).2 with
  | '.' :: fp => (natOfDigitChars ip * 10 ^ fp.length + natOfDigitChars fp, 10 ^ fp.length)
  | _ => (natOfDigitChars ip, 1)

/-- Rounding of the non-negative fraction `a / d` (with `d > 0`) to the
    nearest natural number with ties to even, the rounding mode of IEEE-754
    arithmetic. -/
def roundHE (a d : Nat) : Nat :=
  let q := a / d
  let r := a % d
  if 2 * r < d then q
  else if d < 2 * r then q + 1
  else if q % 2 = 0 then q else q + 1

/-- Whether `2 ^ d ≤ p.1 / p.2`, by cross multiplication. -/
def pairLe2exp (p : Nat × Nat) (d : ℤ) : Bool :=
  if 0 ≤ d then decide (p.2 * 2 ^ d.toNat ≤ p.1) else decide (p.2 ≤ p.1 * 2 ^ (-d).toNat)

/-- The binade exponent of the positive fraction `p.1 / p.2`: the `e` with
    `2 ^ e ≤ p.1 / p.2 < 2 ^ (e + 1)`. -/
def pairExp2 (p : Nat × Nat) : ℤ :=
  let d : ℤ := (natLog2 p.1 : ℤ) - (natLog2 p.2 : ℤ)
  if pairLe2exp p d then d else d - 1

/-- IEEE-754 binary64 round-to-nearest, ties-to-even, of the non-negative
    fraction `p.1 / p.2`, as a fraction whose denominator is a power of
    two: the value is rounded to the quantum `2 ^ (e - 52)` of its binade
    (or to the subnormal quantum `2 ^ (-1074)`), with the exponent left
    unbounded above — callers compare against `2 ^ 1024` to detect overflow
    to infinity. -/
def floatPair (p : Nat × Nat) : Nat × Nat :=
  let e := pairExp2 p
  let s : ℤ := if e - 52 < -1074 then -1074 else e - 52
  if 0 ≤ s then
    (roundHE p.1 (p.2 * 2 ^ s.toNat) * 2 ^ s.toNat, p.2)
  else
    (roundHE (p.1 * 2 ^ (-s).toNat) p.2, 2 ^ (-s).toNat)

/-- The failure modes of `parse_size`: an input that the regex rejects,
    unit letters absent from the `units` dictionary, and the uncaught
    `OverflowError` that `int()` raises when the float product is
    infinite. -/
inductive SizeError where
  | invalidFormat : SizeError
  | unknownUnit : SizeError
  | overflow : SizeError
  deriving DecidableEq

/-- `parse_size`: strip, match the regex, upper-case the unit (empty
    defaults to `B`), look up the multiplier, and return
    `int(float(number_str) * units[unit])`.  `float(number_str)` rounds the
    literal's value to the nearest binary64 double, represented here as the
    fraction `floatPair (decimalPair numStr)` (a value at least `2 ^ 1024`
    stands for the infinity the conversion produces); the multiplier is a
    power of two not exceeding `2 ^ 40`, so the float product is exact and
    overflows to infinity exactly when it reaches `2 ^ 1024`; `int()`
    truncates the non-negative result toward zero — its floor — and raises
    the uncaught `OverflowError` on infinity. -/
def parse_size (s : List Char) : Except SizeError Nat :=
  let t := stripStr s
  match matchSizeRe t with
  | none => .error .invalidFormat
  | some (numStr, unitStr) =>
    let up := unitStr.map toUpperChar
    let unit := if up = [] then ['B'] else up
    match unitsMap unit with
    | none => .error .unknownUnit
    | some m =>
      let f := floatPair (decimalPair numStr)
      if 2 ^ 1024 * f.2 ≤ f.1 * m then .error .overflow
      else .ok (f.1 * m / f.2)

/-- The unit names `("B", "KB", "MB", "GB", "TB")` iterated by
    `format_size`. -/
def unitsList : List (List Char) :=
  [['B'], ['K', 'B'], ['M', 'B'], ['G', 'B'], ['T', 'B']]

/-- `float(v)` of a non-negative integer, as the `.1f` format specifier
    converts the loop value before rendering: the nearest binary64 double
    (integral again, returned as a natural number), or `none` for the
    `OverflowError` raised when the rounded value reaches `2 ^ 1024`. -/
def floatNat (v : Nat) : Option Nat :=
  let f := floatPair (v, 1)
  if 2 ^ 1024 * f.2 ≤ f.1 then none else some (f.1 / f.2)

/-- The failure mode of `format_size`: the uncaught `OverflowError` from
    formatting an integer too large for a float. -/
inductive FormatError where
  | overflowError : FormatError
  deriving DecidableEq

/-- The loop of `format_size`: stop at the first unit where the value has
    dropped below 1024, or at `TB` unconditionally; render with one decimal
    digit except at `B`.  `f"{v:.1f}"` first converts the integer `v` to a
    float — so the digits shown are those of the rounded value, and the
    conversion raises `OverflowError` past the float range — and prints the
    (integral) double exactly, followed by `.0`.  The `B` branch
    `f"{v} B"` prints the integer directly.  The final line of
    `format_size` after the loop is unreachable and mirrored by the `[]`
    case. -/
def formatLoop (n : Nat) : List (List Char) → Except FormatError (List Char)
  | [] => .ok (natDigitChars n ++ [' ', 'B'])
  | u :: us =>
    if n < 1024 ∨ u = ['T', 'B'] then
      if u ≠ ['B'] then
        match floatNat n with
        | some w => .ok (natDigitChars w ++ ['.', '0', ' '] ++ u)
        | none => .error .overflowError
      else .ok (natDigitChars n ++ [' ', 'B'])
    else formatLoop (n / 1024) us

/-- `format_size(num_bytes)` for a non-negative byte count. -/
def format_size (n : Nat) : Except FormatError (List Char) :=
  formatLoop n unitsList

/-- Modelled from the spec: a string consisting of an integer or decimal
    number immediately followed by optional unit letters,
    `<number><optional-letters>`, with no room for anything else. -/
def NumberLetters (t : List Char) : Prop :=
  ∃ ds fr ls, t = ds ++ fr ++ ls ∧ ds ≠ [] ∧ ds.all isDigitChar = true ∧
    (fr = [] ∨ ∃ fd, fr = '.' :: fd ∧ fd ≠ [] ∧ fd.all isDigitChar = true) ∧
    ls.all isAlphaChar = true

/-- Modelled from the spec, amended to the source's regex: an integer or
    decimal number, optional whitespace, then optional unit letters. -/
def NumberWsLetters (t : List Char) : Prop :=
  ∃ ds fr sp ls, t = ds ++ fr ++ sp ++ ls ∧ ds ≠ [] ∧ ds.all isDigitChar = true ∧
    (fr = [] ∨ ∃ fd, fr = '.' :: fd ∧ fd ≠ [] ∧ fd.all isDigitChar = true) ∧
    sp.all isSpaceChar = true ∧ ls.all isAlphaChar = true

/-- Modelled from the spec: the unit index `format` should select, the
    least `k` (capped at `TB`, index 4) at which the rendered value
    `n / 1024^k` has dropped below 1024. -/
def specUnitIndex (n : Nat) : Nat :=
  if n < 1024 then 0
  else if n < 1024 ^ 2 then 1
  else if n < 1024 ^ 3 then 2
  else if n < 1024 ^ 4 then 3
  else 4

instance {ε α : Type} [DecidableEq ε] [DecidableEq α] : DecidableEq (Except ε α) := fun x y =>
  match x, y with
  | .ok a, .ok b =>
    if h : a = b then isTrue (by rw [h]) else isFalse (fun hc => h (Except.ok.inj hc))
  | .error e, .error f =>
    if h : e = f then isTrue (by rw [h]) else isFalse (fun hc => h (Except.error.inj hc))
  | .ok _, .error _ => isFalse (fun hc => Except.noConfusion hc)
  | .error _, .ok _ => isFalse (fun hc => Except.noConfusion hc)

/-! ### Character-class facts -/

theorem isSpaceChar_not_digit {c : Char} (h : isSpaceChar c = true) :
    isDigitChar c = false := by
  simp only [isSpaceChar, Bool.or_eq_true, decide_eq_true_eq] at h
  simp only [isDigitChar, Bool.and_eq_true, decide_eq_true_eq, Bool.and_eq_false_iff,
    Bool.not_eq_true, decide_eq_false_iff_not]
  omega

theorem isAlphaChar_not_digit {c : Char} (h : isAlphaChar c = true) :
    isDigitChar c = false := by
  simp only [isAlphaChar, Bool.or_eq_true, Bool.and_eq_true, decide_eq_true_eq] at h
  simp only [isDigitChar, Bool.and_eq_false_iff, Bool.not_eq_true, decide_eq_false_iff_not]
  omega

theorem toNat_dot : '.'.toNat = 46 := by decide

theorem char_ne_of_toNat_ne {c d : Char} (h : c.toNat ≠ d.toNat) : c ≠ d := by
  intro hc; exact h (by rw [hc])

theorem isSpaceChar_ne_dot {c : Char} (h : isSpaceChar c = true) : c ≠ '.' := by
  simp only [isSpaceChar, Bool.or_eq_true, decide_eq_true_eq] at h
  apply char_ne_of_toNat_ne
  rw [toNat_dot]
  omega

theorem isAlphaChar_ne_dot {c : Char} (h : isAlphaChar c = true) : c ≠ '.' := by
  simp only [isAlphaChar, Bool.or_eq_true, Bool.and_eq_true, decide_eq_true_eq] at h
  apply char_ne_of_toNat_ne
  rw [toNat_dot]
  omega

theorem isAlphaChar_not_space {c : Char} (h : isAlphaChar c = true) :
    isSpaceChar c = false := by
  simp only [isAlphaChar, Bool.or_eq_true, Bool.and_eq_true, decide_eq_true_eq] at h
  simp only [isSpaceChar, Bool.or_eq_false_iff, decide_eq_false_iff_not]
  omega

theorem dot_not_digit : isDigitChar '.' = false := by decide

/-! ### `splitWhile` facts -/

theorem splitWhile_append (p : Char → Bool) (l : List Char) :
    (splitWhile p l).1 ++ (splitWhile p l).2 = l := by
  induction l with
  | nil => simp [splitWhile]
  | cons c cs ih =>
    by_cases h : p c
    · simp [splitWhile, h, ih]
    · simp [splitWhile, h]

theorem splitWhile_all (p : Char → Bool) (l : List Char) :
    ∀ c ∈ (splitWhile p l).1, p c = true := by
  induction l with
  | nil => simp [splitWhile]
  | cons c cs ih =>
    by_cases h : p c
    · simp only [splitWhile, h, if_true]
      intro d hd
      rcases List.mem_cons.mp hd with h1 | h1
      · rw [h1]; exact h
      · exact ih d h1
    · simp [splitWhile, h]

theorem splitWhile_head (p : Char → Bool) (l : List Char) :
    ∀ c cs, (splitWhile p l).2 = c :: cs → p c = false := by
  induction l with
  | nil => simp [splitWhile]
  | cons c cs ih =>
    by_cases h : p c
    · simp only [splitWhile, h, if_true]
      exact ih
    · simp only [splitWhile, h, if_false]
      intro d ds hd
      rw [(List.cons.inj hd).1] at h
      exact Bool.not_eq_true _ ▸ (by simpa using h)

theorem splitWhile_of_all {p : Char → Bool} {a b : List Char}
    (ha : ∀ c ∈ a, p c = true)
    (hb : ∀ c cs, b = c :: cs → p c = false) :
    splitWhile p (a ++ b) = (a, b) := by
  induction a with
  | nil =>
    simp only [List.nil_append]
    cases b with
    | nil => rfl
    | cons c cs =>
      have := hb c cs rfl
      simp [splitWhile, this]
  | cons c cs ih =>
    have hc : p c = true := ha c (List.mem_cons_self c cs)
    have ihh := ih (fun d hd => ha d (List.mem_cons_of_mem c hd))
    simp [splitWhile, hc, ihh]

/-! ### Chunking facts -/

theorem readChunks_rec (S : Nat) (motive : List Byte → Prop)
    (h1 : ∀ rest, rest.take S = [] → motive rest)
    (h2 : ∀ rest, rest.take S ≠ [] → motive (rest.drop S) → motive rest) :
    ∀ rest, motive rest := by
  have key : ∀ n (rest : List Byte), rest.length ≤ n → motive rest := by
    intro n
    induction n with
    | zero =>
      intro rest hlen
      have : rest = [] := List.length_eq_zero.mp (Nat.le_zero.mp hlen)
      subst this
      exact h1 [] (List.take_nil)
    | succ n ih =>
      intro rest hlen
      by_cases h : rest.take S = []
      · exact h1 rest h
      · refine h2 rest h (ih _ ?_)
        rw [List.take_eq_nil_iff] at h
        push_neg at h
        have hpos : 0 < rest.length := List.length_pos.mpr h.2
        simp only [List.length_drop]
        omega
  exact fun rest => key rest.length rest le_rfl

theorem readChunks_nil_of (S : Nat) {rest : List Byte} (h : rest.take S = []) :
    readChunks S rest = [] := by
  rw [readChunks, dif_pos h]

theorem readChunks_cons_of (S : Nat) {rest : List Byte} (h : rest.take S ≠ []) :
    readChunks S rest = rest.take S :: readChunks S (rest.drop S) := by
  rw [readChunks, dif_neg h]

theorem flatten_readChunks {S : Nat} (hS : 0 < S) (rest : List Byte) :
    (readChunks S rest).flatten = rest := by
  induction rest using readChunks_rec S with
  | h1 rest h =>
    rw [readChunks_nil_of S h]
    rw [List.take_eq_nil_iff] at h
    rcases h with h | h
    · omega
    · simp [h]
  | h2 rest h ih =>
    rw [readChunks_cons_of S h]
    simp only [List.flatten_cons, ih]
    exact List.take_append_drop S rest

theorem take_ne_nil_facts {S : Nat} {rest : List Byte} (h : rest.take S ≠ []) :
    rest ≠ [] ∧ S ≠ 0 := by
  constructor
  · intro hc; exact h (by rw [hc]; exact List.take_nil)
  · intro hc; exact h (by rw [hc]; exact List.take_zero rest)

theorem length_readChunks {S : Nat} (hS : 0 < S) (rest : List Byte) :
    (readChunks S rest).length = (rest.length + S - 1) / S := by
  induction rest using readChunks_rec S with
  | h1 rest h =>
    rw [readChunks_nil_of S h]
    rw [List.take_eq_nil_iff] at h
    rcases h with h | h
    · omega
    · subst h
      simp only [List.length_nil]
      symm
      apply Nat.div_eq_of_lt
      omega
  | h2 rest h ih =>
    rw [readChunks_cons_of S h]
    have hne : rest ≠ [] := (take_ne_nil_facts h).1
    have hpos : 0 < rest.length := List.length_pos.mpr hne
    simp only [List.length_cons, ih, List.length_drop]
    by_cases hle : rest.length ≤ S
    · have hz : rest.length - S = 0 := by omega
      rw [hz]
      have h0 : (0 + S - 1) / S = 0 := Nat.div_eq_of_lt (by omega)
      rw [h0]
      have heq : rest.length + S - 1 = (rest.length - 1) + S := by omega
      rw [heq, Nat.add_div_right _ hS]
      rw [Nat.div_eq_of_lt (by omega)]
    · have heq : rest.length + S - 1 = ((rest.length - S) + S - 1) + S := by omega
      rw [heq, Nat.add_div_right _ hS]

theorem mem_dropLast_readChunks {S : Nat} (hS : 0 < S) (rest : List Byte) :
    ∀ c ∈ (readChunks S rest).dropLast, c.length = S := by
  induction rest using readChunks_rec S with
  | h1 rest h =>
    rw [readChunks_nil_of S h]
    simp
  | h2 rest h ih =>
    rw [readChunks_cons_of S h]
    have hne : rest ≠ [] := (take_ne_nil_facts h).1
    have hpos : 0 < rest.length := List.length_pos.mpr hne
    by_cases hd : readChunks S (rest.drop S) = []
    · rw [hd]
      simp
    · intro c hc
      rw [List.dropLast_cons_of_ne_nil hd] at hc
      rcases List.mem_cons.mp hc with h1 | h1
      · subst h1
        have hdr : (rest.drop S).take S ≠ [] := by
          intro hc2
          exact hd (readChunks_nil_of S hc2)
        have hdrop : rest.drop S ≠ [] := (take_ne_nil_facts hdr).1
        have hlen : 0 < (rest.drop S).length := List.length_pos.mpr hdrop
        simp only [List.length_drop] at hlen
        simp only [List.length_take]
        omega
      · exact ih c h1

theorem getLast?_readChunks {S : Nat} (hS : 0 < S) (rest : List Byte) :
    ∀ l, (readChunks S rest).getLast? = some l →
      l.length = rest.length - ((readChunks S rest).length - 1) * S := by
  induction rest using readChunks_rec S with
  | h1 rest h =>
    rw [readChunks_nil_of S h]
    simp
  | h2 rest h ih =>
    have hne : rest ≠ [] := (take_ne_nil_facts h).1
    have hpos : 0 < rest.length := List.length_pos.mpr hne
    intro l hl
    rw [readChunks_cons_of S h] at hl ⊢
    by_cases hd : readChunks S (rest.drop S) = []
    · rw [hd] at hl ⊢
      simp only [List.getLast?_singleton, Option.some.injEq] at hl
      have htk : (rest.drop S).take S = [] := by
        by_contra hc
        rw [readChunks_cons_of S hc] at hd
        exact List.noConfusion hd
      rw [List.take_eq_nil_iff] at htk
      have hdln : (rest.drop S).length = 0 := by
        rcases htk with h2 | h2
        · omega
        · rw [h2]; rfl
      simp only [List.length_drop] at hdln
      rw [← hl]
      simp only [List.length_cons, List.length_nil, List.length_take]
      omega
    · obtain ⟨b, t, hbt⟩ := List.exists_cons_of_ne_nil hd
      rw [hbt, List.getLast?_cons_cons] at hl
      have hrec := ih l (by rw [hbt]; exact hl)
      simp only [List.length_cons]
      have hcount : 0 < (readChunks S (rest.drop S)).length := List.length_pos.mpr hd
      simp only [List.length_drop] at hrec
      have hSle : S ≤ rest.length := by
        have hdr : (rest.drop S).take S ≠ [] := by
          intro hc2
          exact hd (readChunks_nil_of S hc2)
        have hdrop : rest.drop S ≠ [] := (take_ne_nil_facts hdr).1
        have hlen : 0 < (rest.drop S).length := List.length_pos.mpr hdrop
        simp only [List.length_drop] at hlen
        omega
      rw [hrec]
      have hstep : (readChunks S (rest.drop S)).length + 1 - 1
          = ((readChunks S (rest.drop S)).length - 1) + 1 := by omega
      rw [hstep, Nat.succ_mul]
      omega

theorem chopLoop_nil_of (S : Nat) (nm : List Char) (i : Nat) {rest : Bytes}
    (h : rest.take S = []) : chopLoop S nm i rest = [] := by
  rw [chopLoop, dif_pos h]

theorem chopLoop_cons_of (S : Nat) (nm : List Char) (i : Nat) {rest : Bytes}
    (h : rest.take S ≠ []) :
    chopLoop S nm i rest
      = (partName nm i, rest.take S) :: chopLoop S nm (i + 1) (rest.drop S) := by
  rw [chopLoop, dif_neg h]

theorem chopLoop_map_snd (S : Nat) (nm : List Char) (rest : Bytes) :
    ∀ i, (chopLoop S nm i rest).map Prod.snd = readChunks S rest := by
  induction rest using readChunks_rec S with
  | h1 rest h =>
    intro i
    rw [chopLoop_nil_of S nm i h, readChunks_nil_of S h]
    rfl
  | h2 rest h ih =>
    intro i
    rw [chopLoop_cons_of S nm i h, readChunks_cons_of S h]
    simp only [List.map_cons]
    rw [ih (i + 1)]

theorem chopLoop_map_fst (S : Nat) (nm : List Char) (rest : Bytes) :
    ∀ i, (chopLoop S nm i rest).map Prod.fst
      = (List.range (chopLoop S nm i rest).length).map (fun k => partName nm (i + k)) := by
  induction rest using readChunks_rec S with
  | h1 rest h =>
    intro i
    rw [chopLoop_nil_of S nm i h]
    rfl
  | h2 rest h ih =>
    intro i
    rw [chopLoop_cons_of S nm i h]
    simp only [List.map_cons, List.length_cons]
    rw [List.range_succ_eq_map]
    simp only [List.map_cons, List.map_map]
    congr 1
    rw [ih (i + 1)]
    apply List.map_congr_left
    intro k _
    simp only [Function.comp_apply]
    congr 1
    omega

theorem chopLoop_length (S : Nat) (nm : List Char) (rest : Bytes) (i : Nat) :
    (chopLoop S nm i rest).length = (readChunks S rest).length := by
  rw [← chopLoop_map_snd S nm rest i, List.length_map]

/-! ### Decimal digit strings -/

theorem digitsFuel_irrel : ∀ (n f1 f2 : Nat), n < f1 → n < f2 →
    digitsFuel f1 n = digitsFuel f2 n := by
  intro n
  induction n using Nat.strong_induction_on with
  | _ n ih =>
    intro f1 f2 h1 h2
    cases f1 with
    | zero => omega
    | succ g1 =>
      cases f2 with
      | zero => omega
      | succ g2 =>
        simp only [digitsFuel]
        by_cases h : n < 10
        · rw [if_pos h, if_pos h]
        · rw [if_neg h, if_neg h]
          have hdiv : n / 10 < n := Nat.div_lt_self (by omega) (by omega)
          rw [ih (n / 10) hdiv g1 g2 (by omega) (by omega)]

theorem natDigitChars_eq (n : Nat) :
    natDigitChars n
      = if n < 10 then [digitChar n]
        else natDigitChars (n / 10) ++ [digitChar (n % 10)] := by
  show digitsFuel (n + 1) n = _
  simp only [digitsFuel]
  by_cases h : n < 10
  · rw [if_pos h, if_pos h]
  · rw [if_neg h, if_neg h]
    have hdiv : n / 10 < n := Nat.div_lt_self (by omega) (by omega)
    rw [digitsFuel_irrel (n / 10) n (n / 10 + 1) (by omega) (by omega)]
    rfl

theorem natDigitChars_all_digit (n : Nat) : ∀ c ∈ natDigitChars n, isDigitChar c = true := by
  induction n using Nat.strong_induction_on with
  | _ n ih =>
    by_cases h : n < 10
    · rw [natDigitChars_eq, if_pos h]
      intro c hc
      rcases List.mem_singleton.mp hc with rfl
      have : ∀ d, d < 10 → isDigitChar (digitChar d) = true := by decide
      exact this n h
    · rw [natDigitChars_eq, if_neg h]
      intro c hc
      rcases List.mem_append.mp hc with h1 | h1
      · exact ih (n / 10) (Nat.div_lt_self (by omega) (by omega)) c h1
      · rcases List.mem_singleton.mp h1 with rfl
        have : ∀ d, d < 10 → isDigitChar (digitChar d) = true := by decide
        exact this (n % 10) (Nat.mod_lt _ (by omega))

theorem natDigitChars_ne_nil (n : Nat) : natDigitChars n ≠ [] := by
  by_cases h : n < 10
  · rw [natDigitChars_eq, if_pos h]
    exact List.cons_ne_nil _ _
  · rw [natDigitChars_eq, if_neg h]
    simp

theorem natDigitChars_length_ge (k : Nat) :
    ∀ n, 10 ^ k ≤ n → k + 1 ≤ (natDigitChars n).length := by
  induction k with
  | zero =>
    intro n _
    have := natDigitChars_ne_nil n
    have := List.length_pos.mpr this
    omega
  | succ k ih =>
    intro n hn
    have h10 : ¬ n < 10 := by
      have : 10 ^ 1 ≤ 10 ^ (k + 1) := Nat.pow_le_pow_right (by omega) (by omega)
      simp only [pow_one] at this
      omega
    rw [natDigitChars_eq, if_neg h10]
    have hdiv : 10 ^ k ≤ n / 10 := by
      rw [Nat.le_div_iff_mul_le (by omega)]
      calc 10 ^ k * 10 = 10 ^ (k + 1) := by ring
        _ ≤ n := hn
    have := ih (n / 10) hdiv
    simp only [List.length_append, List.length_cons, List.length_nil]
    omega

theorem t_not_digit : isDigitChar 't' = false := by decide

theorem parsePartName_partName_none (base : List Char) (i : Nat) (hi : 10000 ≤ i) :
    parsePartName (partName base i) = none := by
  have hlen : 5 ≤ (natDigitChars i).length := by
    have h4 := natDigitChars_length_ge 4 i (by norm_num; omega)
    omega
  have hpad : zeroPad 4 (natDigitChars i) = natDigitChars i := by
    unfold zeroPad
    have hz : 4 - (natDigitChars i).length = 0 := by omega
    rw [hz]
    rfl
  unfold partName
  rw [hpad]
  unfold parsePartName
  rw [if_neg]
  intro hcond
  obtain ⟨h1, h2, h3, h4⟩ := hcond
  have hrev : (base ++ partDotChars ++ natDigitChars i).reverse
      = (natDigitChars i).reverse ++ (partDotChars.reverse ++ base.reverse) := by
    simp [List.reverse_append]
  rw [hrev] at h3
  have hrl : 4 ≤ (natDigitChars i).reverse.length := by
    rw [List.length_reverse]
    omega
  rw [List.drop_append_of_le_length hrl] at h3
  have hdne : (natDigitChars i).reverse.drop 4 ≠ [] := by
    intro hc
    have := congrArg List.length hc
    simp only [List.length_drop, List.length_reverse, List.length_nil] at this
    omega
  obtain ⟨c, t, hct⟩ := List.exists_cons_of_ne_nil hdne
  rw [hct] at h3
  simp only [List.cons_append, List.take_cons] at h3
  have hc_t : c = 't' := (List.cons.inj h3).1
  have hmem : c ∈ (natDigitChars i).reverse.drop 4 := by
    rw [hct]; exact List.mem_cons_self c t
  have hmem2 : c ∈ (natDigitChars i).reverse := List.mem_of_mem_drop hmem
  have hmem3 : c ∈ natDigitChars i := List.mem_reverse.mp hmem2
  have hdig : isDigitChar c = true := natDigitChars_all_digit i c hmem3
  rw [hc_t, t_not_digit] at hdig
  exact Bool.noConfusion hdig

/-! ### File-system facts -/

theorem FS.get_set_same (fs : FS) (p : FPath) (d : Bytes) :
    FS.get (FS.set fs p d) p = some d := by
  induction fs with
  | nil => simp [FS.set, FS.get]
  | cons e rest ih =>
    obtain ⟨q, c⟩ := e
    by_cases h : q = p
    · simp [FS.set, h, FS.get]
    · simp [FS.set, h, FS.get, ih]

theorem FS.get_set_other (fs : FS) (p q : FPath) (d : Bytes) (hne : p ≠ q) :
    FS.get (FS.set fs p d) q = FS.get fs q := by
  induction fs with
  | nil => simp [FS.set, FS.get, hne]
  | cons e rest ih =>
    obtain ⟨r, c⟩ := e
    by_cases h : r = p
    · subst h
      simp [FS.set, FS.get, hne]
    · simp [FS.set, h, FS.get, ih]

theorem FS.get_erase_same (fs : FS) (p : FPath) :
    FS.get (FS.erase fs p) p = none := by
  induction fs with
  | nil => rfl
  | cons e rest ih =>
    obtain ⟨q, c⟩ := e
    simp only [FS.erase, List.filter_cons] at ih ⊢
    by_cases h : q = p
    · rw [if_neg (by simp [h])]
      exact ih
    · rw [if_pos (by simp [h])]
      simp only [FS.get, if_neg h]
      exact ih

theorem FS.get_erase_other (fs : FS) (p q : FPath) (hne : p ≠ q) :
    FS.get (FS.erase fs p) q = FS.get fs q := by
  induction fs with
  | nil => rfl
  | cons e rest ih =>
    obtain ⟨r, c⟩ := e
    simp only [FS.erase, List.filter_cons] at ih ⊢
    by_cases h : r = p
    · rw [if_neg (by simp [h])]
      rw [ih]
      have hrq : ¬ r = q := fun hc => hne (h ▸ hc)
      simp only [FS.get, if_neg hrq]
    · rw [if_pos (by simp [h])]
      simp only [FS.get]
      by_cases hq : r = q
      · rw [if_pos hq, if_pos hq]
      · rw [if_neg hq, if_neg hq]
        exact ih

theorem writeParts_get_other (out q : FPath) (hne : q ≠ out) :
    ∀ (ps : List FPath) (fs : FS), FS.get (writeParts fs out ps) q = FS.get fs q := by
  intro ps
  induction ps with
  | nil => intro fs; rfl
  | cons p rest ih =>
    intro fs
    simp only [writeParts]
    rw [ih]
    exact FS.get_set_other _ _ _ _ (fun hc => hne hc.symm)

theorem writeParts_get_out (out : FPath) :
    ∀ (ps : List FPath) (fs : FS) (acc : Bytes), out ∉ ps → FS.get fs out = some acc →
      FS.get (writeParts fs out ps) out
        = some (acc ++ joinWrittenBytes (ps.map (fun p => (FS.get fs p).getD []))) := by
  intro ps
  induction ps with
  | nil =>
    intro fs acc _ hacc
    simp only [writeParts, List.map_nil, joinWrittenBytes, List.flatten_nil, List.append_nil]
    exact hacc
  | cons p rest ih =>
    intro fs acc hout hacc
    have hpne : p ≠ out := fun hc => hout (by rw [hc]; exact List.mem_cons_self _ _)
    have hrest : out ∉ rest := fun hc => hout (List.mem_cons_of_mem _ hc)
    simp only [writeParts]
    rw [hacc]
    simp only [Option.getD_some]
    have hstep := ih (FS.set fs out (acc ++ partReadBytes ((FS.get fs p).getD []))) _ hrest
      (FS.get_set_same fs out _)
    rw [hstep]
    have hmap : rest.map (fun r => (FS.get (FS.set fs out (acc ++ partReadBytes ((FS.get fs p).getD []))) r).getD [])
        = rest.map (fun r => (FS.get fs r).getD []) := by
      apply List.map_congr_left
      intro r hr
      have hrne : out ≠ r := fun hc => hrest (hc ▸ hr)
      rw [FS.get_set_other fs out r _ hrne]
    rw [hmap]
    simp only [joinWrittenBytes, List.map_cons, List.flatten_cons, List.append_assoc]

/-! ### Sorting and discovery -/

theorem mem_insertSorted (x a : List Char) (l : List (List Char)) :
    a ∈ insertSorted x l ↔ a = x ∨ a ∈ l := by
  induction l with
  | nil => simp [insertSorted]
  | cons y ys ih =>
    unfold insertSorted
    by_cases h : lexLe x y = true
    · rw [if_pos h]
      simp [List.mem_cons]
    · rw [if_neg h]
      simp only [List.mem_cons, ih]
      tauto

theorem mem_sortNames (a : List Char) (l : List (List Char)) :
    a ∈ sortNames l ↔ a ∈ l := by
  induction l with
  | nil => simp [sortNames]
  | cons x xs ih =>
    simp only [sortNames, mem_insertSorted, ih, List.mem_cons]

theorem find_parts_mem (entries : List (List Char)) (baseName : List Char)
    (l : List (List Char)) (hok : find_parts entries baseName = .ok l) :
    ∀ n ∈ l, (parsePartName n).isSome = true := by
  unfold find_parts at hok
  by_cases hc : (sortNames (entries.filter (fun n => List.isPrefixOf (baseName ++ partDotChars) n))).filter
      (fun n => (parsePartName n).isSome) = []
  · rw [if_pos hc] at hok
    exact Except.noConfusion hok
  · rw [if_neg hc] at hok
    have hl := Except.ok.inj hok
    subst hl
    intro n hn
    exact (List.mem_filter.mp hn).2

/-! ### `join` unfolding facts -/

theorem join_empty (hash : Bytes → Bytes) (fs : FS) (output : Option FPath) (verify : Bool) :
    join hash fs [] output verify = (fs, .error .invalidArgument) := rfl

theorem join_missing (hash : Bytes → Bytes) (fs : FS) (p : FPath) (ps : List FPath)
    (output : Option FPath) (verify : Bool) (r : FPath)
    (hfind : (p :: ps).find? (fun q => (FS.get fs q).isNone) = some r) :
    join hash fs (p :: ps) output verify = (fs, .error (.notFound r)) := by
  simp only [join, hfind]

theorem join_noverify (hash : Bytes → Bytes) (fs : FS) (p : FPath) (ps : List FPath)
    (output : Option FPath) (out : FPath) (fs1 : FS)
    (hex : (p :: ps).find? (fun q => (FS.get fs q).isNone) = none)
    (hout : out = resolveOutput (p :: ps) output)
    (hfs1 : fs1 = writeParts (FS.set fs out []) out (p :: ps)) :
    join hash fs (p :: ps) output false = (fs1, .ok out) := by
  subst hout hfs1
  simp only [join, hex]
  rfl

theorem join_verify_none (hash : Bytes → Bytes) (fs : FS) (p : FPath) (ps : List FPath)
    (output : Option FPath) (out : FPath) (fs1 : FS)
    (hex : (p :: ps).find? (fun q => (FS.get fs q).isNone) = none)
    (hout : out = resolveOutput (p :: ps) output)
    (hfs1 : fs1 = writeParts (FS.set fs out []) out (p :: ps))
    (hcs : FS.get fs1 (sidecarPath (p :: ps) out) = none) :
    join hash fs (p :: ps) output true = (fs1, .ok out) := by
  subst hout hfs1
  simp only [join, hex, hcs]
  rw [if_pos trivial]

theorem join_verify_mismatch (hash : Bytes → Bytes) (fs : FS) (p : FPath) (ps : List FPath)
    (output : Option FPath) (out : FPath) (fs1 : FS) (sc t : Bytes)
    (hex : (p :: ps).find? (fun q => (FS.get fs q).isNone) = none)
    (hout : out = resolveOutput (p :: ps) output)
    (hfs1 : fs1 = writeParts (FS.set fs out []) out (p :: ps))
    (hsc : FS.get fs1 (sidecarPath (p :: ps) out) = some sc)
    (htok : firstToken sc = some t)
    (hne : t ≠ hash ((FS.get fs1 out).getD [])) :
    join hash fs (p :: ps) output true
      = (FS.erase fs1 out, .error (.checksumMismatch t (hash ((FS.get fs1 out).getD [])))) := by
  subst hout hfs1
  simp only [join, hex, hsc, htok]
  rw [if_pos trivial, if_neg hne]

theorem join_verify_match (hash : Bytes → Bytes) (fs : FS) (p : FPath) (ps : List FPath)
    (output : Option FPath) (out : FPath) (fs1 : FS) (sc t : Bytes)
    (hex : (p :: ps).find? (fun q => (FS.get fs q).isNone) = none)
    (hout : out = resolveOutput (p :: ps) output)
    (hfs1 : fs1 = writeParts (FS.set fs out []) out (p :: ps))
    (hsc : FS.get fs1 (sidecarPath (p :: ps) out) = some sc)
    (htok : firstToken sc = some t)
    (heq : t = hash ((FS.get fs1 out).getD [])) :
    join hash fs (p :: ps) output true = (fs1, .ok out) := by
  subst hout hfs1
  simp only [join, hex, hsc, htok]
  rw [if_pos trivial, if_pos heq]

theorem writeParts_preserves (fs : FS) (out q : FPath) (hq : q ≠ out) (ps : List FPath) :
    FS.get (writeParts (FS.set fs out []) out ps) q = FS.get fs q := by
  rw [writeParts_get_other out q hq, FS.get_set_other _ _ _ _ (fun hc => hq hc.symm)]

theorem writeParts_out_content (fs : FS) (out : FPath) (ps : List FPath) (hout : out ∉ ps) :
    FS.get (writeParts (FS.set fs out []) out ps) out
      = some (joinWrittenBytes (ps.map (fun p => (FS.get fs p).getD []))) := by
  have h := writeParts_get_out out ps (FS.set fs out []) [] hout (FS.get_set_same fs out [])
  rw [h]
  simp only [List.nil_append]
  congr 2
  apply List.map_congr_left
  intro r hr
  have hrne : out ≠ r := fun hc => hout (hc ▸ hr)
  rw [FS.get_set_other fs out r _ hrne]

theorem partReadBytes_eq (c : Bytes) : partReadBytes c = c := by
  unfold partReadBytes
  exact flatten_readChunks (by unfold BUFFER_SIZE; omega) c

theorem joinWrittenBytes_eq_flatten (cs : List Bytes) : joinWrittenBytes cs = cs.flatten := by
  unfold joinWrittenBytes
  congr 1
  calc cs.map partReadBytes = cs.map id := List.map_congr_left (fun c _ => partReadBytes_eq c)
    _ = cs := List.map_id cs

/-- C1.  For every non-empty source file `F` and every chunk size `S > 0`,
joining (in order) the parts produced by `chop(F, S)` — that is, the bytes
`join`'s write loop emits for them — reproduces `F` byte for byte, for all
`S`, including `S ≥ |F|` and `S = 1`. -/
theorem chop_join_roundtrip (nm : List Char) (F : Bytes) (S : Int)
    (hF : F ≠ []) (hS : 0 < S) :
    ∃ ps, chop nm F S = .ok ps ∧ joinWrittenBytes (ps.map Prod.snd) = F := by
  have hSn : ¬ S ≤ 0 := by omega
  have hFn : ¬ F.length = 0 := fun hc => hF (List.length_eq_zero.mp hc)
  have hpos : 0 < S.toNat := by omega
  refine ⟨chopLoop S.toNat nm 1 F, ?_, ?_⟩
  · unfold chop
    rw [if_neg hSn, if_neg hFn]
  · rw [chopLoop_map_snd, joinWrittenBytes_eq_flatten]
    exact flatten_readChunks hpos F

theorem chop_join_roundtrip_witness :
    ∃ ps, chop ['f'] [1, 2, 3] 2 = .ok ps ∧ joinWrittenBytes (ps.map Prod.snd) = [1, 2, 3] :=
  chop_join_roundtrip ['f'] [1, 2, 3] 2 (by decide) (by decide)

/-- C3.  For every non-empty source file `F` and chunk size `S > 0`,
`chop(F, S)` produces exactly `⌈|F| / S⌉` parts, named with one-based gap-free
indices starting at 1; every part but the last holds exactly `S` bytes, and
the last holds `|F| - (count - 1) * S` bytes. -/
theorem chop_count_sizes (nm : List Char) (F : Bytes) (S : Int)
    (hF : F ≠ []) (hS : 0 < S) :
    ∃ ps, chop nm F S = .ok ps
      ∧ ps.length = F.length ⌈/⌉ S.toNat
      ∧ ps.map Prod.fst = (List.range ps.length).map (fun k => partName nm (1 + k))
      ∧ (∀ pr ∈ ps.dropLast, pr.2.length = S.toNat)
      ∧ (∀ l, ps.getLast? = some l → l.2.length = F.length - (ps.length - 1) * S.toNat) := by
  have hSn : ¬ S ≤ 0 := by omega
  have hFn : ¬ F.length = 0 := fun hc => hF (List.length_eq_zero.mp hc)
  have hpos : 0 < S.toNat := by omega
  refine ⟨chopLoop S.toNat nm 1 F, ?_, ?_, ?_, ?_, ?_⟩
  · unfold chop
    rw [if_neg hSn, if_neg hFn]
  · rw [Nat.ceilDiv_eq_add_pred_div, chopLoop_length]
    exact length_readChunks hpos F
  · rw [chopLoop_map_fst, chopLoop_length]
  · intro pr hpr
    have hmem : pr.2 ∈ ((chopLoop S.toNat nm 1 F).dropLast).map Prod.snd :=
      List.mem_map_of_mem Prod.snd hpr
    rw [List.map_dropLast, chopLoop_map_snd] at hmem
    exact mem_dropLast_readChunks hpos F pr.2 hmem
  · intro l hl
    have hmap : ((chopLoop S.toNat nm 1 F).map Prod.snd).getLast? = some l.2 := by
      rw [List.getLast?_map, hl]
      rfl
    rw [chopLoop_map_snd] at hmap
    have := getLast?_readChunks hpos F l.2 hmap
    rw [chopLoop_length, this]

theorem chop_count_sizes_witness :
    ∃ ps, chop ['f'] [1, 2, 3, 4, 5] 2 = .ok ps
      ∧ ps.length = (5 : Nat) ⌈/⌉ 2
      ∧ ps.map Prod.fst = (List.range ps.length).map (fun k => partName ['f'] (1 + k))
      ∧ (∀ pr ∈ ps.dropLast, pr.2.length = 2)
      ∧ (∀ l, ps.getLast? = some l → l.2.length = 5 - (ps.length - 1) * 2) :=
  chop_count_sizes ['f'] [1, 2, 3, 4, 5] 2 (by decide) (by decide)

/-- C4.  `join` fails with `InvalidArgument` on an empty parts list and with
`NotFound` when a listed part is missing, in both cases leaving the file
system — and so in particular any file at the output path — untouched. -/
theorem join_validation_frame (hash : Bytes → Bytes) (fs : FS) (output : Option FPath)
    (verify : Bool) :
    join hash fs [] output verify = (fs, .error .invalidArgument)
    ∧ (∀ parts q, q ∈ parts → FS.get fs q = none →
        ∃ r, r ∈ parts ∧ FS.get fs r = none
          ∧ join hash fs parts output verify = (fs, .error (.notFound r))) := by
  refine ⟨join_empty hash fs output verify, ?_⟩
  intro parts q hq hnone
  have hsome : (parts.find? (fun x => (FS.get fs x).isNone)).isSome := by
    rw [List.find?_isSome]
    exact ⟨q, hq, by rw [hnone]; rfl⟩
  obtain ⟨r, hr⟩ := Option.isSome_iff_exists.mp hsome
  refine ⟨r, List.mem_of_find?_eq_some hr, ?_, ?_⟩
  · have hpr := List.find?_some hr
    exact Option.isNone_iff_eq_none.mp hpr
  · cases parts with
    | nil => cases hq
    | cons p ps => exact join_missing hash fs p ps output verify r hr

theorem join_validation_frame_witness :
    join (fun _ => []) [] [] none true = ([], .error .invalidArgument)
    ∧ (∃ r, r ∈ [FPath.mk ['d'] ['f']] ∧ FS.get [] r = none
        ∧ join (fun _ => []) [] [FPath.mk ['d'] ['f']] none true
            = ([], .error (.notFound r))) :=
  ⟨(join_validation_frame (fun _ => []) [] none true).1,
   (join_validation_frame (fun _ => []) [] none true).2
     [FPath.mk ['d'] ['f']] (FPath.mk ['d'] ['f']) (by decide) rfl⟩

/-- C2.  With verification on, when a sidecar is found (at the path `join`
derives) and its first whitespace-delimited token differs from the digest of
the freshly written output, `join` deletes the output and fails with
`ChecksumMismatch` carrying both digests, leaving no file at the output
path; when no sidecar is found, verification is skipped and `join`
succeeds. -/
theorem join_checksum_verification (hash : Bytes → Bytes) (fs : FS) (p : FPath)
    (ps : List FPath) (output : Option FPath) (out : FPath) (fs1 : FS)
    (hex : (p :: ps).find? (fun q => (FS.get fs q).isNone) = none)
    (hout : out = resolveOutput (p :: ps) output)
    (hfs1 : fs1 = writeParts (FS.set fs out []) out (p :: ps))
    (hcsout : sidecarPath (p :: ps) out ≠ out) :
    (∀ sc t, FS.get fs (sidecarPath (p :: ps) out) = some sc →
        firstToken sc = some t → t ≠ hash ((FS.get fs1 out).getD []) →
        join hash fs (p :: ps) output true
          = (FS.erase fs1 out, .error (.checksumMismatch t (hash ((FS.get fs1 out).getD []))))
        ∧ FS.get (join hash fs (p :: ps) output true).1 out = none)
    ∧ (FS.get fs (sidecarPath (p :: ps) out) = none →
        join hash fs (p :: ps) output true = (fs1, .ok out)) := by
  have hpres : FS.get fs1 (sidecarPath (p :: ps) out)
      = FS.get fs (sidecarPath (p :: ps) out) := by
    rw [hfs1]
    exact writeParts_preserves fs out _ hcsout (p :: ps)
  constructor
  · intro sc t hsc htok hne
    have hjoin := join_verify_mismatch hash fs p ps output out fs1 sc t hex hout hfs1
      (hpres.trans hsc) htok hne
    refine ⟨hjoin, ?_⟩
    rw [hjoin]
    exact FS.get_erase_same fs1 out
  · intro hnone
    exact join_verify_none hash fs p ps output out fs1 hex hout hfs1 (hpres.trans hnone)

/-- A concrete digest function for witnesses: constantly the byte `104`. -/
def hashW : Bytes → Bytes := fun _ => [104]

/-- A concrete part path for witnesses. -/
def pW : FPath := ⟨['d'], "f.bin.part0001".toList⟩

/-- The sidecar path beside `pW`. -/
def csW : FPath := ⟨['d'], "f.bin.sha256".toList⟩

/-- The inferred output path for `pW`. -/
def outW : FPath := ⟨['d'], "f.bin".toList⟩

/-- A file system with one part and a mismatching sidecar (token `[120]`). -/
def fsW : FS := [(pW, [7, 8]), (csW, [120, 32, 110])]

/-- A file system with one part and no sidecar. -/
def fsWn : FS := [(pW, [7, 8])]

theorem join_checksum_verification_witness :
    (join hashW fsW [pW] none true
        = (FS.erase (writeParts (FS.set fsW outW []) outW [pW]) outW,
           .error (.checksumMismatch [120]
             (hashW ((FS.get (writeParts (FS.set fsW outW []) outW [pW]) outW).getD []))))
      ∧ FS.get (join hashW fsW [pW] none true).1 outW = none)
    ∧ join hashW fsWn [pW] none true
        = (writeParts (FS.set fsWn outW []) outW [pW], .ok outW) := by
  constructor
  · exact (join_checksum_verification hashW fsW pW [] none outW
      (writeParts (FS.set fsW outW []) outW [pW]) (by decide) (by decide) rfl
      (by decide)).1 [120, 32, 110] [120] (by decide) (by decide) (by decide)
  · exact (join_checksum_verification hashW fsWn pW [] none outW
      (writeParts (FS.set fsWn outW []) outW [pW]) (by decide) (by decide) rfl
      (by decide)).2 (by decide)

/-- C5.  The checksum sidecar `join` consults is named after the first
part's parsed base name (falling back to the output's file name when the
first part's name does not match the part pattern) and lives in the first
part's directory; with a caller-overridden output, verification is
controlled solely by that path, so `join` succeeds whenever no file exists
there, whatever lies beside the output. -/
theorem join_sidecar_location (hash : Bytes → Bytes) (fs : FS) (p : FPath)
    (ps : List FPath) (o : FPath)
    (hex : (p :: ps).find? (fun q => (FS.get fs q).isNone) = none) :
    (∀ b i, parsePartName p.name = some (b, i) →
        sidecarPath (p :: ps) o = ⟨p.dir, b ++ sha256Ext⟩)
    ∧ (parsePartName p.name = none →
        sidecarPath (p :: ps) o = ⟨p.dir, o.name ++ sha256Ext⟩)
    ∧ resolveOutput (p :: ps) (some o) = o
    ∧ (sidecarPath (p :: ps) o ≠ o → FS.get fs (sidecarPath (p :: ps) o) = none →
        join hash fs (p :: ps) (some o) true
          = (writeParts (FS.set fs o []) o (p :: ps), .ok o)) := by
  refine ⟨?_, ?_, rfl, ?_⟩
  · intro b i hb
    simp only [sidecarPath]
    rw [hb]
  · intro hb
    simp only [sidecarPath]
    rw [hb]
  · intro hne hnone
    apply join_verify_none hash fs p ps (some o) o _ hex rfl rfl
    rw [writeParts_preserves fs o _ hne (p :: ps)]
    exact hnone

/-- An overridden output path in a different directory, for the C5
witness. -/
def oW : FPath := ⟨['e'], "out.bin".toList⟩

/-- A file system where the only sidecar sits beside the overridden output,
not beside the first part. -/
def fsWo : FS := [(pW, [7, 8]), (⟨['e'], "f.bin.sha256".toList⟩, [120, 32, 110])]

theorem join_sidecar_location_witness :
    sidecarPath [pW] oW = ⟨pW.dir, "f.bin".toList ++ sha256Ext⟩
    ∧ resolveOutput [pW] (some oW) = oW
    ∧ join hashW fsWo [pW] (some oW) true
        = (writeParts (FS.set fsWo oW []) oW [pW], .ok oW) := by
  refine ⟨?_, ?_, ?_⟩
  · exact (join_sidecar_location hashW fsWo pW [] oW (by decide)).1
      "f.bin".toList 1 (by decide)
  · exact (join_sidecar_location hashW fsWo pW [] oW (by decide)).2.2.1
  · exact (join_sidecar_location hashW fsWo pW [] oW (by decide)).2.2.2
      (by decide) (by decide)

/-- C10.  `join` truncates the output file before any verification: whatever
file existed at the (possibly inferred) output path, after `join` the output
path holds exactly the bytes written from the parts when `join` succeeds (or
does not verify), and holds nothing at all when checksum verification fails
— the pre-existing contents are destroyed in every case and never
restored. -/
theorem join_output_truncation (hash : Bytes → Bytes) (fs : FS) (p : FPath)
    (ps : List FPath) (output : Option FPath) (verify : Bool) (out : FPath)
    (hex : (p :: ps).find? (fun q => (FS.get fs q).isNone) = none)
    (hout : out = resolveOutput (p :: ps) output)
    (houtmem : out ∉ p :: ps)
    (hcsout : sidecarPath (p :: ps) out ≠ out)
    (htok : ∀ sc, FS.get fs (sidecarPath (p :: ps) out) = some sc →
        (firstToken sc).isSome = true) :
    (FS.get (join hash fs (p :: ps) output verify).1 out
        = some (joinWrittenBytes ((p :: ps).map (fun q => (FS.get fs q).getD [])))
      ∧ (join hash fs (p :: ps) output verify).2 = .ok out)
    ∨ (FS.get (join hash fs (p :: ps) output verify).1 out = none
      ∧ ∃ e a, (join hash fs (p :: ps) output verify).2
          = .error (.checksumMismatch e a)) := by
  have hcontent := writeParts_out_content fs out (p :: ps) houtmem
  have hpres : FS.get (writeParts (FS.set fs out []) out (p :: ps)) (sidecarPath (p :: ps) out)
      = FS.get fs (sidecarPath (p :: ps) out) :=
    writeParts_preserves fs out _ hcsout (p :: ps)
  cases verify with
  | false =>
    left
    rw [join_noverify hash fs p ps output out _ hex hout rfl]
    exact ⟨hcontent, rfl⟩
  | true =>
    cases hsc : FS.get fs (sidecarPath (p :: ps) out) with
    | none =>
      left
      rw [join_verify_none hash fs p ps output out _ hex hout rfl (hpres.trans hsc)]
      exact ⟨hcontent, rfl⟩
    | some sc =>
      obtain ⟨t, ht⟩ := Option.isSome_iff_exists.mp (htok sc hsc)
      by_cases hcmp : t = hash ((FS.get (writeParts (FS.set fs out []) out (p :: ps)) out).getD [])
      · left
        rw [join_verify_match hash fs p ps output out _ sc t hex hout rfl
          (hpres.trans hsc) ht hcmp]
        exact ⟨hcontent, rfl⟩
      · right
        rw [join_verify_mismatch hash fs p ps output out _ sc t hex hout rfl
          (hpres.trans hsc) ht hcmp]
        exact ⟨FS.get_erase_same _ out, t, _, rfl⟩

/-- A pre-existing file at the inferred output path, for the C10 witness. -/
def fsWpre : FS := [(pW, [7, 8]), (outW, [9, 9, 9, 9])]

theorem join_output_truncation_witness :
    (FS.get (join hashW fsWpre [pW] none true).1 outW
        = some (joinWrittenBytes ([pW].map (fun q => (FS.get fsWpre q).getD [])))
      ∧ (join hashW fsWpre [pW] none true).2 = .ok outW)
    ∨ (FS.get (join hashW fsWpre [pW] none true).1 outW = none
      ∧ ∃ e a, (join hashW fsWpre [pW] none true).2
          = .error (.checksumMismatch e a)) :=
  join_output_truncation hashW fsWpre pW [] none true outW (by decide) (by decide)
    (by decide) (by decide) (fun sc hsc => by
      have h0 : FS.get fsWpre (sidecarPath [pW] outW) = none := by decide
      rw [h0] at hsc
      exact Option.noConfusion hsc)

/-- C9.  For any part index `i ≥ 10000` the generated part name carries more
than four digits after `.part`, so it fails the anchored `PART_PATTERN`:
parsing returns `none` and `find_parts` never lists such a file.  `chop`
itself imposes no index ceiling: it succeeds on every valid input, with the
part count `⌈|F| / S⌉` however large. -/
theorem part_index_overflow (base : List Char) (i : Nat) (hi : 10000 ≤ i) :
    4 < (zeroPad 4 (natDigitChars i)).length
    ∧ parsePartName (partName base i) = none
    ∧ (∀ entries bn l, find_parts entries bn = .ok l → partName base i ∉ l)
    ∧ (∀ (nm : List Char) (F : Bytes) (S : Int), F ≠ [] → 0 < S →
        ∃ ps, chop nm F S = .ok ps ∧ ps.length = F.length ⌈/⌉ S.toNat) := by
  have hlen : 5 ≤ (natDigitChars i).length := by
    have h4 := natDigitChars_length_ge 4 i (by norm_num; omega)
    omega
  refine ⟨?_, parsePartName_partName_none base i hi, ?_, ?_⟩
  · simp only [zeroPad, List.length_append, List.length_replicate]
    omega
  · intro entries bn l hok hmem
    have hsome := find_parts_mem entries bn l hok _ hmem
    rw [parsePartName_partName_none base i hi] at hsome
    exact Bool.noConfusion hsome
  · intro nm F S hF hS
    have hSn : ¬ S ≤ 0 := by omega
    have hFn : ¬ F.length = 0 := fun hc => hF (List.length_eq_zero.mp hc)
    have hpos : 0 < S.toNat := by omega
    refine ⟨chopLoop S.toNat nm 1 F, ?_, ?_⟩
    · unfold chop
      rw [if_neg hSn, if_neg hFn]
    · rw [Nat.ceilDiv_eq_add_pred_div, chopLoop_length]
      exact length_readChunks hpos F

theorem part_index_overflow_witness :
    parsePartName (partName "f.bin".toList 10000) = none
    ∧ partName "f.bin".toList 10000 ∉ ["f.bin.part0001".toList]
    ∧ (∃ ps, chop ['g'] (List.replicate 10000 0) 1 = .ok ps
        ∧ ps.length = (List.replicate (10000 : Nat) (0 : Byte)).length ⌈/⌉ (1 : Int).toNat) :=
  ⟨(part_index_overflow "f.bin".toList 10000 (by decide)).2.1,
   (part_index_overflow "f.bin".toList 10000 (by decide)).2.2.1
     ["f.bin.part0001".toList] "f.bin".toList
     ["f.bin.part0001".toList] (by decide),
   (part_index_overflow "f.bin".toList 10000 (by decide)).2.2.2 ['g']
     (List.replicate 10000 0) 1
     (by
       intro hc
       have hlen := congrArg List.length hc
       simp only [List.length_replicate, List.length_nil] at hlen
       exact absurd hlen (by decide))
     (by decide)⟩

/-! ### Size-regex facts -/

theorem fracPart_not_dot {c : Char} {r : List Char} (h : c ≠ '.') :
    fracPart (c :: r) = ([], c :: r) := by
  simp [fracPart, h]

theorem fracPart_dot_nofrac {r : List Char} (h : (splitWhile isDigitChar r).1 = []) :
    fracPart ('.' :: r) = ([], '.' :: r) := by
  simp [fracPart, h]

theorem fracPart_dot_frac {r : List Char} (h : (splitWhile isDigitChar r).1 ≠ []) :
    fracPart ('.' :: r)
      = ('.' :: (splitWhile isDigitChar r).1, (splitWhile isDigitChar r).2) := by
  simp [fracPart, h]

theorem fracPart_append (rest : List Char) :
    (fracPart rest).1 ++ (fracPart rest).2 = rest := by
  cases rest with
  | nil => rfl
  | cons c r =>
    by_cases h : c = '.'
    · subst h
      by_cases hfs : (splitWhile isDigitChar r).1 = []
      · rw [fracPart_dot_nofrac hfs]
        rfl
      · rw [fracPart_dot_frac hfs]
        simp only [List.cons_append, List.cons.injEq, true_and]
        exact splitWhile_append isDigitChar r
    · rw [fracPart_not_dot h]
      rfl

theorem fracPart_spec (rest : List Char) :
    (fracPart rest).1 = []
    ∨ ∃ fd, (fracPart rest).1 = '.' :: fd ∧ fd ≠ [] ∧ (∀ c ∈ fd, isDigitChar c = true) := by
  cases rest with
  | nil => left; rfl
  | cons c r =>
    by_cases h : c = '.'
    · subst h
      by_cases hfs : (splitWhile isDigitChar r).1 = []
      · rw [fracPart_dot_nofrac hfs]
        left
        rfl
      · rw [fracPart_dot_frac hfs]
        right
        exact ⟨(splitWhile isDigitChar r).1, rfl, hfs, splitWhile_all isDigitChar r⟩
    · rw [fracPart_not_dot h]
      left
      rfl

theorem matchSizeRe_sound {t ns us : List Char} (h : matchSizeRe t = some (ns, us)) :
    NumberWsLetters t
    ∧ ns = (splitWhile isDigitChar t).1 ++ (fracPart (splitWhile isDigitChar t).2).1 := by
  simp only [matchSizeRe] at h
  by_cases hds : (splitWhile isDigitChar t).1 = []
  · rw [if_pos hds] at h
    exact Option.noConfusion h
  · rw [if_neg hds] at h
    by_cases hr4 : (splitWhile isAlphaChar (splitWhile isSpaceChar (fracPart (splitWhile isDigitChar t).2).2).2).2 = []
    · rw [if_pos hr4] at h
      have hinj := Option.some.inj h
      have hns : ns = (splitWhile isDigitChar t).1 ++ (fracPart (splitWhile isDigitChar t).2).1 :=
        (Prod.mk.inj hinj).1.symm
      refine ⟨?_, hns⟩
      refine ⟨(splitWhile isDigitChar t).1,
        (fracPart (splitWhile isDigitChar t).2).1,
        (splitWhile isSpaceChar (fracPart (splitWhile isDigitChar t).2).2).1,
        (splitWhile isAlphaChar (splitWhile isSpaceChar (fracPart (splitWhile isDigitChar t).2).2).2).1,
        ?_, hds, ?_, ?_, ?_, ?_⟩
      · have hA : (splitWhile isAlphaChar (splitWhile isSpaceChar (fracPart (splitWhile isDigitChar t).2).2).2).1
            = (splitWhile isSpaceChar (fracPart (splitWhile isDigitChar t).2).2).2 := by
          conv_rhs => rw [← splitWhile_append isAlphaChar (splitWhile isSpaceChar (fracPart (splitWhile isDigitChar t).2).2).2, hr4, List.append_nil]
        have hB : (splitWhile isSpaceChar (fracPart (splitWhile isDigitChar t).2).2).1
              ++ (splitWhile isAlphaChar (splitWhile isSpaceChar (fracPart (splitWhile isDigitChar t).2).2).2).1
            = (fracPart (splitWhile isDigitChar t).2).2 := by
          rw [hA]
          exact splitWhile_append isSpaceChar _
        have hC : (fracPart (splitWhile isDigitChar t).2).1
              ++ ((splitWhile isSpaceChar (fracPart (splitWhile isDigitChar t).2).2).1
              ++ (splitWhile isAlphaChar (splitWhile isSpaceChar (fracPart (splitWhile isDigitChar t).2).2).2).1)
            = (splitWhile isDigitChar t).2 := by
          rw [hB]
          exact fracPart_append _
        have hD : (splitWhile isDigitChar t).1
              ++ ((fracPart (splitWhile isDigitChar t).2).1
              ++ ((splitWhile isSpaceChar (fracPart (splitWhile isDigitChar t).2).2).1
              ++ (splitWhile isAlphaChar (splitWhile isSpaceChar (fracPart (splitWhile isDigitChar t).2).2).2).1))
            = t := by
          rw [hC]
          exact splitWhile_append isDigitChar t
        rw [List.append_assoc, List.append_assoc]
        exact hD.symm
      · exact List.all_eq_true.mpr (splitWhile_all isDigitChar t)
      · rcases fracPart_spec (splitWhile isDigitChar t).2 with hc | ⟨fd, hfd, hfdne, hfdall⟩
        · left; exact hc
        · right; exact ⟨fd, hfd, hfdne, List.all_eq_true.mpr hfdall⟩
      · exact List.all_eq_true.mpr (splitWhile_all isSpaceChar _)
      · exact List.all_eq_true.mpr (splitWhile_all isAlphaChar _)
    · rw [if_neg hr4] at h
      exact Option.noConfusion h

theorem spls_head_not_digit {sp ls : List Char}
    (hsp : ∀ c ∈ sp, isSpaceChar c = true) (hls : ∀ c ∈ ls, isAlphaChar c = true) :
    ∀ c cs, sp ++ ls = c :: cs → isDigitChar c = false := by
  intro c cs hc
  cases sp with
  | nil =>
    simp only [List.nil_append] at hc
    have hmem : c ∈ ls := by rw [hc]; exact List.mem_cons_self c cs
    exact isAlphaChar_not_digit (hls c hmem)
  | cons a as =>
    simp only [List.cons_append] at hc
    have hca : a = c := (List.cons.inj hc).1
    rw [← hca]
    exact isSpaceChar_not_digit (hsp a (List.mem_cons_self a as))

theorem fracPart_spls {sp ls : List Char}
    (hsp : ∀ c ∈ sp, isSpaceChar c = true) (hls : ∀ c ∈ ls, isAlphaChar c = true) :
    fracPart (sp ++ ls) = ([], sp ++ ls) := by
  cases sp with
  | nil =>
    simp only [List.nil_append]
    cases ls with
    | nil => rfl
    | cons a as =>
      exact fracPart_not_dot (isAlphaChar_ne_dot (hls a (List.mem_cons_self a as)))
  | cons a as =>
    simp only [List.cons_append]
    exact fracPart_not_dot (isSpaceChar_ne_dot (hsp a (List.mem_cons_self a as)))

theorem matchSizeRe_complete {t : List Char} (h : NumberWsLetters t) :
    (matchSizeRe t).isSome = true := by
  obtain ⟨ds, fr, sp, ls, rfl, hds, hdsall, hfr, hspall, hlsall⟩ := h
  have hdsm := List.all_eq_true.mp hdsall
  have hspm := List.all_eq_true.mp hspall
  have hlsm := List.all_eq_true.mp hlsall
  have hT : ((ds ++ fr) ++ sp) ++ ls = ds ++ (fr ++ (sp ++ ls)) := by
    rw [List.append_assoc, List.append_assoc]
  rw [show ds ++ fr ++ sp ++ ls = ds ++ (fr ++ (sp ++ ls)) from hT]
  have hheadu : ∀ c cs, fr ++ (sp ++ ls) = c :: cs → isDigitChar c = false := by
    rcases hfr with rfl | ⟨fd, rfl, hfdne, hfdall⟩
    · simp only [List.nil_append]
      exact spls_head_not_digit hspm hlsm
    · intro c cs hc
      simp only [List.cons_append] at hc
      rw [← (List.cons.inj hc).1]
      exact dot_not_digit
  have hsplit : splitWhile isDigitChar (ds ++ (fr ++ (sp ++ ls))) = (ds, fr ++ (sp ++ ls)) :=
    splitWhile_of_all hdsm hheadu
  have hsp2 : splitWhile isSpaceChar (sp ++ ls) = (sp, ls) := by
    apply splitWhile_of_all hspm
    intro c cs hc
    have hmem : c ∈ ls := by rw [hc]; exact List.mem_cons_self c cs
    exact isAlphaChar_not_space (hlsm c hmem)
  have hls2 : splitWhile isAlphaChar ls = (ls, []) := by
    have hbase := splitWhile_of_all (p := isAlphaChar) (a := ls) (b := []) hlsm
      (fun c cs hc => List.noConfusion hc)
    rw [List.append_nil] at hbase
    exact hbase
  have hfrac : fracPart (fr ++ (sp ++ ls)) = (fr, sp ++ ls) := by
    rcases hfr with rfl | ⟨fd, rfl, hfdne, hfdall⟩
    · simp only [List.nil_append]
      exact fracPart_spls hspm hlsm
    · have hfdm := List.all_eq_true.mp hfdall
      simp only [List.cons_append]
      have hsplitf : splitWhile isDigitChar (fd ++ (sp ++ ls)) = (fd, sp ++ ls) :=
        splitWhile_of_all hfdm (spls_head_not_digit hspm hlsm)
      rw [fracPart_dot_frac (by rw [hsplitf]; exact hfdne), hsplitf]
  simp [matchSizeRe, hsplit, hfrac, hsp2, hls2, hds]

set_option maxRecDepth 1000000

theorem parse_size_invalid_iff (s : List Char) :
    parse_size s = .error .invalidFormat ↔ matchSizeRe (stripStr s) = none := by
  simp only [parse_size]
  cases hm : matchSizeRe (stripStr s) with
  | none => simp
  | some pr =>
    obtain ⟨ns, us⟩ := pr
    simp only
    constructor
    · intro hc
      exfalso
      cases hu : unitsMap (if List.map toUpperChar us = [] then ['B'] else List.map toUpperChar us) with
      | none =>
        simp only [hu] at hc
        exact SizeError.noConfusion (Except.error.inj hc)
      | some m =>
        simp only [hu] at hc
        by_cases hov : 2 ^ 1024 * (floatPair (decimalPair ns)).2 ≤ (floatPair (decimalPair ns)).1 * m
        · rw [if_pos hov] at hc
          exact SizeError.noConfusion (Except.error.inj hc)
        · rw [if_neg hov] at hc
          exact Except.noConfusion hc
    · intro hc
      exact Option.noConfusion hc

theorem numberLetters_chars {t : List Char} (h : NumberLetters t) :
    ∀ c ∈ t, isDigitChar c = true ∨ c = '.' ∨ isAlphaChar c = true := by
  obtain ⟨ds, fr, ls, rfl, hds, hdsall, hfr, hlsall⟩ := h
  intro c hc
  rcases List.mem_append.mp hc with hc1 | hc2
  · rcases List.mem_append.mp hc1 with hcd | hcf
    · left
      exact List.all_eq_true.mp hdsall c hcd
    · rcases hfr with rfl | ⟨fd, rfl, hfdne, hfdall⟩
      · cases hcf
      · rcases List.mem_cons.mp hcf with rfl | hfd
        · right; left; rfl
        · left
          exact List.all_eq_true.mp hfdall c hfd
  · right; right
    exact List.all_eq_true.mp hlsall c hc2

/-- C8 counterexample.  The string `"10 MB"` does not consist of a number
immediately followed by optional unit letters — it has interior whitespace —
yet `parse_size` accepts it, so `InvalidFormat` is not raised for every
string outside `<number><optional-letters>`. -/
theorem parse_size_whitespace_counterexample :
    ¬ NumberLetters (stripStr "10 MB".toList)
    ∧ parse_size "10 MB".toList = .ok 10485760 := by
  constructor
  · intro h
    have hc := numberLetters_chars h ' ' (by decide)
    exact absurd hc (by decide)
  · decide

/-- C8 amended.  `parse_size` fails with `InvalidFormat` exactly for those
strings that, after stripping surrounding whitespace, do not consist of an
integer or decimal number followed by optional whitespace and then optional
unit letters. -/
theorem parse_size_invalidFormat_iff (s : List Char) :
    parse_size s = .error .invalidFormat ↔ ¬ NumberWsLetters (stripStr s) := by
  rw [parse_size_invalid_iff]
  constructor
  · intro hnone hform
    have hsome := matchSizeRe_complete hform
    rw [hnone] at hsome
    exact Bool.noConfusion hsome
  · intro hnf
    cases hm : matchSizeRe (stripStr s) with
    | none => rfl
    | some pr =>
      obtain ⟨ns, us⟩ := pr
      exact absurd (matchSizeRe_sound hm).1 hnf

/-! ### Binary64 rounding facts -/

theorem log2fuel_le : ∀ (fuel n k : Nat), n < 2 ^ (k + 1) → log2fuel fuel n ≤ k := by
  intro fuel
  induction fuel with
  | zero =>
    intro n k _
    simp [log2fuel]
  | succ f ih =>
    intro n k h
    simp only [log2fuel]
    by_cases h2 : 2 ≤ n
    · rw [if_pos h2]
      have hk : k ≠ 0 := by
        intro hk0
        subst hk0
        have hpow : (2 : ℕ) ^ (0 + 1) = 2 := by norm_num
        omega
      obtain ⟨k1, rfl⟩ : ∃ k1, k = k1 + 1 := ⟨k - 1, by omega⟩
      have hdiv : n / 2 < 2 ^ (k1 + 1) := by
        rw [Nat.div_lt_iff_lt_mul (by omega)]
        have hp : 2 ^ (k1 + 1 + 1) = 2 ^ (k1 + 1) * 2 := by ring
        omega
      have := ih (n / 2) k1 hdiv
      omega
    · rw [if_neg h2]
      omega

theorem log2fuel_lower : ∀ (fuel n : Nat), 1 ≤ n → 2 ^ log2fuel fuel n ≤ n := by
  intro fuel
  induction fuel with
  | zero =>
    intro n h
    simpa [log2fuel] using h
  | succ f ih =>
    intro n h
    simp only [log2fuel]
    by_cases h2 : 2 ≤ n
    · rw [if_pos h2]
      have h1 : 1 ≤ n / 2 := by omega
      have hrec := ih (n / 2) h1
      have hmul : n / 2 * 2 ≤ n := Nat.div_mul_le_self n 2
      rw [pow_succ]
      have := Nat.mul_le_mul_right 2 hrec
      omega
    · rw [if_neg h2]
      simpa using h

theorem natLog2_one : natLog2 1 = 0 := by decide

theorem roundHE_den_one (a : Nat) : roundHE a 1 = a := by
  simp [roundHE, Nat.mod_one, Nat.div_one]

theorem floatPair_den_pos (p : Nat × Nat) (hp : 0 < p.2) : 0 < (floatPair p).2 := by
  simp only [floatPair]
  split <;> split
  · exact hp
  · exact pow_pos (by omega) _
  · exact hp
  · exact pow_pos (by omega) _

theorem float_exact_floor (p : Nat × Nat) (m : Nat) (hb : 0 < p.2)
    (hrep : (floatPair p).1 * p.2 = p.1 * (floatPair p).2) :
    (floatPair p).1 * m / (floatPair p).2
      = ⌊((p.1 : ℚ) / (p.2 : ℚ)) * ((m : ℕ) : ℚ)⌋₊ := by
  have hf2 : 0 < (floatPair p).2 := floatPair_den_pos p hb
  have hbq : ((p.2 : ℕ) : ℚ) ≠ 0 := Nat.cast_ne_zero.mpr (by omega)
  have hf2q : (((floatPair p).2 : ℕ) : ℚ) ≠ 0 := Nat.cast_ne_zero.mpr (by omega)
  have hq : ((p.1 : ℚ) / (p.2 : ℚ)) = ((floatPair p).1 : ℚ) / ((floatPair p).2 : ℚ) := by
    rw [div_eq_div_iff hbq hf2q]
    have hcast := congrArg (fun x : ℕ => (x : ℚ)) hrep
    push_cast at hcast
    linarith
  rw [hq, div_mul_eq_mul_div, ← Nat.cast_mul, Nat.floor_div_nat, Nat.floor_natCast]

theorem floatNat_small (v : Nat) (hv : v < 2 ^ 53) : floatNat v = some v := by
  by_cases hv0 : v = 0
  · subst hv0
    decide
  · have hv1 : 1 ≤ v := by omega
    have hla_le : natLog2 v ≤ 52 := log2fuel_le v v 52 hv
    have hla_low : 2 ^ natLog2 v ≤ v := log2fuel_lower v v hv1
    have hexp : pairExp2 (v, 1) = (natLog2 v : ℤ) := by
      simp only [pairExp2, pairLe2exp, natLog2_one]
      rw [if_pos (by omega : (0 : ℤ) ≤ (natLog2 v : ℤ) - (0 : ℕ))]
      have ht : ((natLog2 v : ℤ) - (0 : ℕ)).toNat = natLog2 v := by omega
      rw [ht]
      rw [decide_eq_true (by omega : 1 * 2 ^ natLog2 v ≤ v)]
      simp
    simp only [floatNat, floatPair, hexp]
    have hsneg : ¬ ((natLog2 v : ℤ) - 52 < -1074) := by omega
    rw [if_neg hsneg]
    have h2big : (2 : ℕ) ^ 53 ≤ 2 ^ 1024 := Nat.pow_le_pow_right (by omega) (by omega)
    by_cases h52 : natLog2 v = 52
    · rw [h52]
      rw [if_pos (by omega : (0 : ℤ) ≤ ((52 : ℕ) : ℤ) - 52)]
      have ht0 : (((52 : ℕ) : ℤ) - 52).toNat = 0 := by omega
      rw [ht0]
      simp only [pow_zero, mul_one, roundHE_den_one]
      rw [if_neg (by omega : ¬ 2 ^ 1024 ≤ v)]
      rw [Nat.div_one]
    · have hlt52 : natLog2 v < 52 := by omega
      rw [if_neg (by omega : ¬ (0 : ℤ) ≤ (natLog2 v : ℤ) - 52)]
      have hjm : (-((natLog2 v : ℤ) - 52)).toNat = 52 - natLog2 v := by omega
      rw [hjm, roundHE_den_one]
      have hp : 0 < 2 ^ (52 - natLog2 v) := pow_pos (by omega) _
      have hvsmall : ¬ 2 ^ 1024 * 2 ^ (52 - natLog2 v) ≤ v * 2 ^ (52 - natLog2 v) := by
        intro hc
        have := Nat.le_of_mul_le_mul_right hc hp
        have h2 : (2 : ℕ) ^ 53 ≤ 2 ^ 1024 := Nat.pow_le_pow_right (by omega) (by omega)
        omega
      rw [if_neg hvsmall, Nat.mul_div_cancel v hp]

/-- C6 (corrected).  The five concrete facts hold: `parse_size "100MB"` is
`104857600`, `"1.5K"` is `1536`, `"512"` is `512`, `"bad"` fails with
`InvalidFormat` and `"10XB"` with `UnknownUnit`.  The general clause holds
only up to binary64 rounding: when the regex matches with number `ns` and a
known unit of multiplier `m`, the double `float(number_str)` represents the
literal's value exactly (the cross-multiplication hypothesis) and the float
product stays below `2 ^ 1024`, the result is the floor of the exact
product.  When rounding moves the value the result differs from that floor
(see the counterexample), and past the float range the uncaught
`OverflowError` replaces any value. -/
theorem parse_size_values :
    parse_size "100MB".toList = .ok 104857600
    ∧ parse_size "1.5K".toList = .ok 1536
    ∧ parse_size "512".toList = .ok 512
    ∧ parse_size "bad".toList = .error .invalidFormat
    ∧ parse_size "10XB".toList = .error .unknownUnit
    ∧ ∀ (s ns us : List Char) (m : Nat),
        matchSizeRe (stripStr s) = some (ns, us) →
        unitsMap (if List.map toUpperChar us = [] then ['B'] else List.map toUpperChar us)
          = some m →
        (floatPair (decimalPair ns)).1 * (decimalPair ns).2
          = (decimalPair ns).1 * (floatPair (decimalPair ns)).2 →
        ¬ (2 ^ 1024 * (floatPair (decimalPair ns)).2 ≤ (floatPair (decimalPair ns)).1 * m) →
        parse_size s = .ok ⌊decimalValue ns * ((m : ℕ) : ℚ)⌋₊ := by
  refine ⟨by decide, by decide, by decide, by decide, by decide, ?_⟩
  intro s ns us m hm hu hrep hov
  have hds0 := splitWhile_all isDigitChar (stripStr s)
  have hfr0 := fracPart_spec (splitWhile isDigitChar (stripStr s)).2
  have hshape := (matchSizeRe_sound hm).2
  have hre : splitWhile isDigitChar ns
      = ((splitWhile isDigitChar (stripStr s)).1,
         (fracPart (splitWhile isDigitChar (stripStr s)).2).1) := by
    rw [hshape]
    refine splitWhile_of_all hds0 ?_
    intro c cs hc
    rcases hfr0 with hni | ⟨fd, hfd, hfdne, hfdall⟩
    · rw [hni] at hc
      exact List.noConfusion hc
    · rw [hfd] at hc
      rw [← (List.cons.inj hc).1]
      exact dot_not_digit
  have hdp : 0 < (decimalPair ns).2 := by
    rcases hfr0 with hni | ⟨fd, hfd, hfdne, hfdall⟩
    · simp only [decimalPair, hre, hni]
      exact Nat.one_pos
    · simp only [decimalPair, hre, hfd]
      exact pow_pos (by omega) _
  have hbridge : decimalValue ns = ((decimalPair ns).1 : ℚ) / ((decimalPair ns).2 : ℚ) := by
    rcases hfr0 with hni | ⟨fd, hfd, hfdne, hfdall⟩
    · simp only [decimalValue, decimalPair, hre, hni]
      norm_num
    · simp only [decimalValue, decimalPair, hre, hfd]
      have h10 : ((10 : ℚ)) ^ fd.length ≠ 0 := by positivity
      push_cast
      field_simp
  simp only [parse_size, hm, hu]
  rw [if_neg hov]
  congr 1
  rw [hbridge]
  exact float_exact_floor (decimalPair ns) m hdp hrep

/-- C6 witness: the general floor clause of `parse_size_values` applied at
`"1.5K"`, whose literal `1.5` is exactly representable in binary64. -/
theorem parse_size_values_witness :
    parse_size "1.5K".toList = .ok ⌊decimalValue ['1', '.', '5'] * ((1024 : ℕ) : ℚ)⌋₊ :=
  parse_size_values.2.2.2.2.2 "1.5K".toList ['1', '.', '5'] ['K'] 1024
    (by decide) (by decide) (by decide) (by decide)

/-- C6 counterexample.  For `"0.99999999999999999999"` (no unit, so the
multiplier is 1) the floor of the exact product is `0`, but
`float("0.99999999999999999999")` rounds up to `1.0`, so the program
returns `1`: the unqualified floor clause is false of the program. -/
theorem parse_size_float_counterexample :
    matchSizeRe (stripStr "0.99999999999999999999".toList)
      = some ("0.99999999999999999999".toList, [])
    ∧ unitsMap ['B'] = some 1
    ∧ parse_size "0.99999999999999999999".toList = .ok 1
    ∧ ⌊decimalValue "0.99999999999999999999".toList * ((1 : ℕ) : ℚ)⌋₊ = 0 := by
  refine ⟨by decide, by decide, by decide, ?_⟩
  have h1 : (splitWhile isDigitChar "0.99999999999999999999".toList).1 = ['0'] := by decide
  have h2 : (splitWhile isDigitChar "0.99999999999999999999".toList).2
      = '.' :: "99999999999999999999".toList := by decide
  simp only [decimalValue, h1, h2]
  have h3 : natOfDigitChars ['0'] = 0 := by decide
  have h4 : natOfDigitChars "99999999999999999999".toList = 99999999999999999999 := by decide
  have h5 : ("99999999999999999999".toList).length = 20 := by decide
  rw [h3, h4, h5]
  rw [Nat.floor_eq_zero]
  push_cast
  rw [zero_add, mul_one, div_lt_one (by positivity)]
  norm_num
/-- C7 (corrected).  The loop picks the unit exactly as specified: the index
used is the least `k ≤ 4` with `n / 1024 ^ k < 1024`, capped at `TB`
(index 4), past which the value is never divided (conjuncts 1–3); at `B`
the integer is printed directly with no decimal point (conjunct 4).  But at
every other unit the source renders `f"{v:.1f}"`, which first converts
`v = n / 1024 ^ k` to a binary64 double: the digits printed are those of
the rounded value `w`, followed by exactly one decimal digit, a `0`
(conjunct 5), and when that conversion overflows the double range the loop
raises `OverflowError` instead of returning (conjunct 6).  For rendered
values below `2 ^ 53` the conversion is exact, recovering the spec's
reading (conjunct 7). -/
theorem format_size_spec (n : Nat) :
    specUnitIndex n ≤ 4
    ∧ (specUnitIndex n = 4 ∨ n / 1024 ^ specUnitIndex n < 1024)
    ∧ (∀ j : Nat, j < specUnitIndex n → ¬ n / 1024 ^ j < 1024)
    ∧ (specUnitIndex n = 0 → format_size n = .ok (natDigitChars n ++ [' ', 'B']))
    ∧ (∀ w : Nat, floatNat (n / 1024 ^ specUnitIndex n) = some w → specUnitIndex n ≠ 0 →
        format_size n
          = .ok (natDigitChars w ++ ['.', '0', ' '] ++ unitsList.getD (specUnitIndex n) []))
    ∧ (floatNat (n / 1024 ^ specUnitIndex n) = none → format_size n = .error .overflowError)
    ∧ (n / 1024 ^ specUnitIndex n < 2 ^ 53 →
        floatNat (n / 1024 ^ specUnitIndex n) = some (n / 1024 ^ specUnitIndex n)) := by
  have e2 : (1024 : ℕ) ^ 2 = 1048576 := by norm_num
  have e3 : (1024 : ℕ) ^ 3 = 1073741824 := by norm_num
  have e4 : (1024 : ℕ) ^ 4 = 1099511627776 := by norm_num
  have h53 : (1024 : ℕ) ≤ 2 ^ 53 := by norm_num
  have hd2 : n / 1024 / 1024 = n / 1024 ^ 2 := by
    rw [Nat.div_div_eq_div_mul, (by norm_num : (1024 : ℕ) * 1024 = 1024 ^ 2)]
  have hd3 : n / 1024 ^ 2 / 1024 = n / 1024 ^ 3 := by
    rw [Nat.div_div_eq_div_mul, (by norm_num : (1024 : ℕ) ^ 2 * 1024 = 1024 ^ 3)]
  have hd4 : n / 1024 ^ 3 / 1024 = n / 1024 ^ 4 := by
    rw [Nat.div_div_eq_div_mul, (by norm_num : (1024 : ℕ) ^ 3 * 1024 = 1024 ^ 4)]
  by_cases h0 : n < 1024
  · have hk : specUnitIndex n = 0 := by simp [specUnitIndex, h0]
    simp only [hk]
    refine ⟨by omega, Or.inr ?_, ?_, ?_, ?_, ?_, ?_⟩
    · rw [pow_zero, Nat.div_one]
      exact h0
    · intro j hj
      exact absurd hj (by omega)
    · intro _
      simp only [format_size, unitsList, formatLoop]
      rw [if_pos (Or.inl h0), if_neg (by simp : ¬ ((['B'] : List Char) ≠ ['B']))]
    · intro w hw hne
      exact absurd rfl hne
    · intro hnone
      rw [pow_zero, Nat.div_one] at hnone
      rw [floatNat_small n (by omega)] at hnone
      exact Option.noConfusion hnone
    · intro _
      rw [pow_zero, Nat.div_one]
      exact floatNat_small n (by omega)
  · by_cases h1 : n < 1024 ^ 2
    · have hk : specUnitIndex n = 1 := by
        unfold specUnitIndex
        rw [if_neg h0, if_pos h1]
      have hlt : n / 1024 < 1024 := by
        rw [Nat.div_lt_iff_lt_mul (by norm_num)]
        omega
      simp only [hk]
      refine ⟨by omega, Or.inr ?_, ?_, ?_, ?_, ?_, ?_⟩
      · rw [pow_one]
        exact hlt
      · intro j hj
        have hj0 : j = 0 := by omega
        subst hj0
        rw [pow_zero, Nat.div_one]
        exact h0
      · intro h
        exact absurd h one_ne_zero
      · intro w hw hne
        rw [pow_one] at hw
        simp only [format_size, unitsList, formatLoop]
        rw [if_neg (not_or.mpr ⟨h0, by decide⟩),
          if_pos (Or.inl hlt), if_pos (by decide : (['K', 'B'] : List Char) ≠ ['B'])]
        simp only [hw]
        rfl
      · intro hnone
        rw [pow_one] at hnone
        rw [floatNat_small (n / 1024) (by omega)] at hnone
        exact Option.noConfusion hnone
      · intro _
        rw [pow_one]
        exact floatNat_small (n / 1024) (by omega)
    · by_cases h2 : n < 1024 ^ 3
      · have hk : specUnitIndex n = 2 := by
          unfold specUnitIndex
          rw [if_neg h0, if_neg h1, if_pos h2]
        have hge1 : ¬ n / 1024 < 1024 := by
          rw [Nat.div_lt_iff_lt_mul (by norm_num)]
          omega
        have hlt : n / 1024 ^ 2 < 1024 := by
          rw [Nat.div_lt_iff_lt_mul (by positivity)]
          omega
        simp only [hk]
        refine ⟨by omega, Or.inr hlt, ?_, ?_, ?_, ?_, ?_⟩
        · intro j hj
          rcases (by omega : j = 0 ∨ j = 1) with rfl | rfl
          · rw [pow_zero, Nat.div_one]
            exact h0
          · rw [pow_one]
            exact hge1
        · intro h
          exact absurd h (by omega)
        · intro w hw hne
          simp only [format_size, unitsList, formatLoop]
          rw [hd2]
          rw [if_neg (not_or.mpr ⟨h0, by decide⟩),
            if_neg (not_or.mpr ⟨hge1, by decide⟩),
            if_pos (Or.inl hlt), if_pos (by decide : (['M', 'B'] : List Char) ≠ ['B'])]
          simp only [hw]
          rfl
        · intro hnone
          rw [floatNat_small (n / 1024 ^ 2) (by omega)] at hnone
          exact Option.noConfusion hnone
        · intro _
          exact floatNat_small (n / 1024 ^ 2) (by omega)
      · by_cases h3 : n < 1024 ^ 4
        · have hk : specUnitIndex n = 3 := by
            unfold specUnitIndex
            rw [if_neg h0, if_neg h1, if_neg h2, if_pos h3]
          have hge1 : ¬ n / 1024 < 1024 := by
            rw [Nat.div_lt_iff_lt_mul (by norm_num)]
            omega
          have hge2 : ¬ n / 1024 ^ 2 < 1024 := by
            rw [Nat.div_lt_iff_lt_mul (by positivity)]
            omega
          have hlt : n / 1024 ^ 3 < 1024 := by
            rw [Nat.div_lt_iff_lt_mul (by positivity)]
            omega
          simp only [hk]
          refine ⟨by omega, Or.inr hlt, ?_, ?_, ?_, ?_, ?_⟩
          · intro j hj
            rcases (by omega : j = 0 ∨ j = 1 ∨ j = 2) with rfl | rfl | rfl
            · rw [pow_zero, Nat.div_one]
              exact h0
            · rw [pow_one]
              exact hge1
            · exact hge2
          · intro h
            exact absurd h (by omega)
          · intro w hw hne
            simp only [format_size, unitsList, formatLoop]
            rw [hd2, hd3]
            rw [if_neg (not_or.mpr ⟨h0, by decide⟩),
              if_neg (not_or.mpr ⟨hge1, by decide⟩),
              if_neg (not_or.mpr ⟨hge2, by decide⟩),
              if_pos (Or.inl hlt), if_pos (by decide : (['G', 'B'] : List Char) ≠ ['B'])]
            simp only [hw]
            rfl
          · intro hnone
            rw [floatNat_small (n / 1024 ^ 3) (by omega)] at hnone
            exact Option.noConfusion hnone
          · intro _
            exact floatNat_small (n / 1024 ^ 3) (by omega)
        · have hk : specUnitIndex n = 4 := by
            unfold specUnitIndex
            rw [if_neg h0, if_neg h1, if_neg h2, if_neg h3]
          have hge1 : ¬ n / 1024 < 1024 := by
            rw [Nat.div_lt_iff_lt_mul (by norm_num)]
            omega
          have hge2 : ¬ n / 1024 ^ 2 < 1024 := by
            rw [Nat.div_lt_iff_lt_mul (by positivity)]
            omega
          have hge3 : ¬ n / 1024 ^ 3 < 1024 := by
            rw [Nat.div_lt_iff_lt_mul (by positivity)]
            omega
          simp only [hk]
          refine ⟨by omega, Or.inl trivial, ?_, ?_, ?_, ?_, ?_⟩
          · intro j hj
            rcases (by omega : j = 0 ∨ j = 1 ∨ j = 2 ∨ j = 3) with rfl | rfl | rfl | rfl
            · rw [pow_zero, Nat.div_one]
              exact h0
            · rw [pow_one]
              exact hge1
            · exact hge2
            · exact hge3
          · intro h
            exact absurd h (by omega)
          · intro w hw hne
            simp only [format_size, unitsList, formatLoop]
            rw [hd2, hd3, hd4]
            rw [if_neg (not_or.mpr ⟨h0, by decide⟩),
              if_neg (not_or.mpr ⟨hge1, by decide⟩),
              if_neg (not_or.mpr ⟨hge2, by decide⟩),
              if_neg (not_or.mpr ⟨hge3, by decide⟩),
              if_pos (Or.inr trivial), if_pos (by decide : (['T', 'B'] : List Char) ≠ ['B'])]
            simp only [hw]
            rfl
          · intro hnone
            simp only [format_size, unitsList, formatLoop]
            rw [hd2, hd3, hd4]
            rw [if_neg (not_or.mpr ⟨h0, by decide⟩),
              if_neg (not_or.mpr ⟨hge1, by decide⟩),
              if_neg (not_or.mpr ⟨hge2, by decide⟩),
              if_neg (not_or.mpr ⟨hge3, by decide⟩),
              if_pos (Or.inr trivial), if_pos (by decide : (['T', 'B'] : List Char) ≠ ['B'])]
            simp only [hnone]
          · intro hlt
            exact floatNat_small (n / 1024 ^ 4) hlt

/-- C7 witness: the rendering clause of `format_size_spec` at `n = 2048`,
where the chosen unit is `KB` and the converted value is the exact `2`. -/
theorem format_size_spec_witness :
    format_size 2048
      = .ok (natDigitChars 2 ++ ['.', '0', ' '] ++ unitsList.getD (specUnitIndex 2048) []) :=
  (format_size_spec 2048).2.2.2.2.1 2 (by decide) (by decide)

/-- C7 counterexample.  Rendering is not exact decimal: for
`n = 2 ^ 93 + 2 ^ 40` the quotient at `TB` is `9007199254740993`, but
`float` rounds it to `9007199254740992.0`, which is what is printed; and
for `n = 2 ^ 1064` the conversion to float overflows, so `format_size`
raises `OverflowError` instead of returning a string. -/
theorem format_size_float_counterexample :
    (2 ^ 93 + 2 ^ 40) / 1024 ^ 4 = 9007199254740993
    ∧ format_size (2 ^ 93 + 2 ^ 40) = .ok ("9007199254740992.0 TB".toList)
    ∧ format_size (2 ^ 1064) = .error .overflowError := by
  refine ⟨by decide, by decide, by decide⟩
